import Mathlib

/-!
# MCL command interpreter: shallow embedding of `src/source/main.c`

Conventions of the embedding.

* A C string is modelled by the list of its characters before the terminating
  NUL (`Text`).  A `char *` walking through a string is the remaining suffix.
  Raw byte streams (file contents, standard input) may contain NUL characters;
  `c_str` cuts them where the C code would stop reading.
* The global `mcl_system` is passed explicitly: every function that can touch
  it takes the state and returns the state it leaves behind.
* `variables` holds the entries `0 .. var_count - 1` of the C array and
  `program` the entries `0 .. program_size - 1`; the entries above the counters
  are never read by the program.  `var_count` and `program_size` are the
  lengths of these lists.
* Every `printf` call contributes one element (without the final newline) to
  the output list of the function that performs it.
* `int` is 32 bits wide; arithmetic on it is reduced with `wrap32`.
* The copying loops of the source (`var_name[i++] = ...`, `strcpy`) have no
  bound on the number of characters they copy, and neither have the model's:
  the model keeps every character.  The arrays they fill are finite
  (`var_name[MAX_VAR_NAME]`, `Variable.name[MAX_VAR_NAME]`,
  `current_program[MAX_FILENAME]`, `filename[256]`).  The model describes the
  C program as long as every name and file name copied fits its array, with its
  terminator: names of at most 31 characters (`name_fits`, `names_fit`), file
  names of at most 255.  Past that the C program writes outside the array and
  what it does is not given by its source; the statements about the names
  themselves state the bound.
* The operating system is a parameter `Env` (files, directory, `uname`, clock).
-/

namespace MCL

/-! ## Constants and basic types -/

def MAX_LINE_LENGTH : Nat := 1024
def MAX_VARS : Nat := 256
def MAX_PROGRAMS : Nat := 100
def MAX_PROGRAM_SIZE : Nat := 10000
def MAX_VAR_NAME : Nat := 32
def MAX_FILENAME : Nat := 256

abbrev Text := List Char

abbrev Out := List Text

/-- Two's complement reduction of an integer to the range of a 32-bit `int`. -/
def wrap32 (x : Int) : Int := (x + 2147483648) % 4294967296 - 2147483648

/-- The part of a character buffer that C reads as a string. -/
def c_str (buf : List Char) : Text := buf.takeWhile (fun c => c != '\x00')

/-! ## `<ctype.h>` in the C locale -/

def isspace (c : Char) : Bool :=
  c == ' ' || c == '\t' || c == '\n' || c == '\x0b' || c == '\x0c' || c == '\r'

def isdigit (c : Char) : Bool := decide (48 ≤ c.toNat) && decide (c.toNat ≤ 57)

def isupper (c : Char) : Bool := decide (65 ≤ c.toNat) && decide (c.toNat ≤ 90)

def islower (c : Char) : Bool := decide (97 ≤ c.toNat) && decide (c.toNat ≤ 122)

def isalpha (c : Char) : Bool := isupper c || islower c

def isalnum (c : Char) : Bool := isalpha c || isdigit c

def toupper (c : Char) : Char := if islower c then Char.ofNat (c.toNat - 32) else c

/-! ## `printf("%d")` -/

def digit_char (d : Nat) : Char := Char.ofNat (48 + d)

/-- Decimal digits of `n`, most significant first, pushed in front of `acc`. -/
def fmt_nat_aux : Nat → Nat → List Char → List Char
  | 0, _, acc => acc
  | fuel + 1, n, acc =>
    if n / 10 = 0 then digit_char (n % 10) :: acc
    else fmt_nat_aux fuel (n / 10) (digit_char (n % 10) :: acc)

def fmt_nat (n : Nat) : Text := fmt_nat_aux (n + 1) n []

/-- The text `printf("%d", v)` produces. -/
def fmt_d (v : Int) : Text :=
  if v < 0 then '-' :: fmt_nat v.natAbs else fmt_nat v.toNat

/-! ## Data model -/

structure Variable where
  name : Text
  value : Int
  used : Int
  deriving DecidableEq

structure ProgramLine where
  line_number : Int
  content : Text
  deriving DecidableEq

structure MCLSystem where
  «variables» : List Variable
  program : List ProgramLine
  current_program : Text
  program_loaded : Bool
  deriving DecidableEq

def MCLSystem.var_count (s : MCLSystem) : Nat := s.variables.length

def MCLSystem.program_size (s : MCLSystem) : Nat := s.program.length

/-- The state `MCLSystem mcl_system = {0}` at program start. -/
def mcl_init : MCLSystem := ⟨[], [], [], false⟩

/-! ## Operating system -/

structure DirEntry where
  d_name : Text
  is_dir : Bool

structure Utsname where
  sysname : Text
  release : Text
  machine : Text
  nodename : Text

structure Env where
  /-- `fopen(name, "r")`: the bytes of the file when it can be opened. -/
  fopen_read : Text → Option (List Char)
  /-- `fopen(name, "w")` succeeds. -/
  fopen_write : Text → Bool
  /-- `uname`, when it returns 0. -/
  uname : Option Utsname
  /-- `ctime(&current_time)`, which ends with a newline. -/
  ctime : Text
  /-- `opendir(".")` with the entries `readdir` yields; `is_dir` is
  `stat(...) == 0 && S_ISDIR(...)`. -/
  opendir : Option (List DirEntry)

/-! ## Lexer -/

def skip_whitespace (input : Text) : Text := input.dropWhile isspace

/-- The `strncmp(ptr, word, n) == 0` tests of the source, `n` being the length
of `word`. -/
def starts_with (ptr word : Text) : Bool := word.isPrefixOf ptr

/-- The digit loop of `evaluate_expression` (lines 169-172). -/
def eval_digits : Int → Text → Int × Text
  | value, [] => (value, [])
  | value, c :: cs =>
    if isdigit c then eval_digits (wrap32 (value * 10 + ((c.toNat : Int) - 48))) cs
    else (value, c :: cs)

/-- The scan of `find_variable` from index `i` on; the result is the index of
the entry the returned pointer refers to. -/
def find_from (name : Text) : List Variable → Nat → Option Nat
  | [], _ => none
  | v :: vs, i => if v.name = name then some i else find_from name vs (i + 1)

def find_variable (sys : MCLSystem) (name : Text) : Option Nat :=
  find_from name sys.variables 0

/-- Returns the new state, the index of the created entry (`none` for `NULL`)
and the output.  The `strcpy` into `var->name`, an array of `MAX_VAR_NAME`
characters, is modelled for names of at most 31 characters; a longer name is
kept whole here, where the C code overruns the array. -/
def create_variable (sys : MCLSystem) (name : Text) : MCLSystem × Option Nat × Out :=
  if sys.var_count ≥ MAX_VARS then
    (sys, none, ["Error: Maximum variables exceeded".toList])
  else
    (⟨sys.variables ++ [⟨name, 0, 1⟩], sys.program, sys.current_program, sys.program_loaded⟩,
      some sys.var_count, [])

/-- Reads `var->value` through the pointer `&variables[i]`. -/
def var_value (sys : MCLSystem) (i : Nat) : Int :=
  match sys.variables.get? i with
  | some v => v.value
  | none => 0

/-- The array with `value` stored in the `value` field of entry `i`. -/
def set_at : List Variable → Nat → Int → List Variable
  | [], _, _ => []
  | v :: vs, 0, value => ⟨v.name, value, v.used⟩ :: vs
  | v :: vs, i + 1, value => v :: set_at vs i value

/-- Performs `var->value = value` through the pointer `&variables[i]`. -/
def set_value (sys : MCLSystem) (i : Nat) (value : Int) : MCLSystem :=
  ⟨set_at sys.variables i value, sys.program, sys.current_program, sys.program_loaded⟩

/-! ## Expression evaluation -/

def name_char (c : Char) : Bool := isalnum c || c == '_'

structure EvalResult where
  value : Int
  /-- The updated `*input`. -/
  input : Text
  sys : MCLSystem
  out : Out

/-- The evaluator (lines 146-177).  The loop that copies the name of a
reference into `var_name`, an array of `MAX_VAR_NAME` characters, has no bound:
the model follows the C code for names of at most 31 characters and keeps a
longer name whole, where the C code overruns the array. -/
def evaluate_expression (sys : MCLSystem) (input : Text) : EvalResult :=
  match skip_whitespace input with
  | [] => ⟨0, [], sys, []⟩
  | c :: cs =>
    if c = '$' then
      let var_name := cs.takeWhile name_char
      let rest := cs.dropWhile name_char
      match find_variable sys var_name with
      | some i => ⟨var_value sys i, rest, sys, []⟩
      | none => ⟨0, rest, sys, ["Error: Variable $".toList ++ var_name ++ " not found".toList]⟩
    else if isdigit c then
      ⟨(eval_digits 0 (c :: cs)).1, (eval_digits 0 (c :: cs)).2, sys, []⟩
    else ⟨0, c :: cs, sys, []⟩

/-- The statement `if (*ptr == ',') ptr++;`. -/
def skip_comma (ptr : Text) : Text :=
  match ptr with
  | ',' :: rest => rest
  | _ => ptr

/-! ## Command implementations -/

def cmd_sum (sys : MCLSystem) (args : Text) : MCLSystem × Out :=
  let e1 := evaluate_expression sys args
  let ptr := skip_comma (skip_whitespace e1.input)
  let e2 := evaluate_expression e1.sys ptr
  (e2.sys, e1.out ++ e2.out ++ [fmt_d (wrap32 (e1.value + e2.value))])

def cmd_syb (sys : MCLSystem) (args : Text) : MCLSystem × Out :=
  let e1 := evaluate_expression sys args
  let ptr := skip_comma (skip_whitespace e1.input)
  let e2 := evaluate_expression e1.sys ptr
  (e2.sys, e1.out ++ e2.out ++ [fmt_d (wrap32 (e1.value - e2.value))])

/-- The message `"Variable $%s initialized to %d"`. -/
def ini_message (var_name : Text) (value : Int) : Text :=
  "Variable $".toList ++ var_name ++ " initialized to ".toList ++ fmt_d value

/-- The command `INI` (lines 202-234).  As in `evaluate_expression`, the name is
copied into `var_name` without bound, and `create_variable` copies it again:
the model follows the C code for names of at most 31 characters. -/
def cmd_ini (sys : MCLSystem) (args : Text) : MCLSystem × Out :=
  match skip_whitespace args with
  | '$' :: p1 =>
    let var_name := p1.takeWhile name_char
    let p2 := skip_whitespace (p1.dropWhile name_char)
    let e : EvalResult := if p2 ≠ [] then evaluate_expression sys p2 else ⟨0, p2, sys, []⟩
    match find_variable e.sys var_name with
    | some i => (set_value e.sys i e.value, e.out ++ [ini_message var_name e.value])
    | none =>
      match create_variable e.sys var_name with
      | (sys1, some i, out1) =>
        (set_value sys1 i e.value, e.out ++ out1 ++ [ini_message var_name e.value])
      | (sys1, none, out1) => (sys1, e.out ++ out1)
  | _ => (sys, ["Error: Variable name must start with $".toList])

/-- The character `*ptr`, NUL at the end of the string. -/
def peek (ptr : Text) : Char := ptr.headD '\x00'

/-- The test `strstr(hay, needle) != NULL`. -/
def strstr_found (hay needle : Text) : Bool := hay.tails.any (fun t => needle.isPrefixOf t)

/-- Reads at most `n` characters, stopping after a newline; returns what was
read and what is left of the stream. -/
def fgets_chunk : Nat → List Char → List Char × List Char
  | 0, cs => ([], cs)
  | _ + 1, [] => ([], [])
  | n + 1, c :: cs =>
    if c = '\n' then ([c], cs) else ((fgets_chunk n cs).1.cons c, (fgets_chunk n cs).2)

/-- The call `fgets(buf, n, stream)`: `none` at end of file, otherwise the
characters stored in `buf` and the rest of the stream. -/
def fgets (n : Nat) (stream : List Char) : Option (List Char × List Char) :=
  if stream = [] then none else some (fgets_chunk (n - 1) stream)

/-- The buffer after `line[strcspn(line, "\n")] = 0`, read as a string. -/
def strip_newline (line : List Char) : Text := (c_str line).takeWhile (fun c => c != '\n')

/-- The words `sscanf` reads with successive `%s` conversions. -/
def scan_words : Nat → Text → List Text
  | 0, _ => []
  | fuel + 1, t =>
    match skip_whitespace t with
    | [] => []
    | c :: cs =>
      (c :: cs).takeWhile (fun x => !isspace x) ::
        scan_words fuel ((c :: cs).dropWhile (fun x => !isspace x))

/-- The lines of the mount table that the loop at lines 351-358 prints. -/
def mount_lines : Nat → List Char → Out
  | 0, _ => []
  | fuel + 1, stream =>
    match fgets 256 stream with
    | none => []
    | some (line, rest) =>
      match scan_words 4 (c_str line) with
      | device :: mount_point :: fs_type :: _ =>
        if peek mount_point = '/' && decide (mount_point.length < 20) then
          (device ++ " on ".toList ++ mount_point ++ " (".toList ++ fs_type ++ ")".toList) ::
            mount_lines fuel rest
        else mount_lines fuel rest
      | _ => mount_lines fuel rest

def list_usage : Out :=
  ["LIST command format:".toList,
   "LIST 1,$     - List directories".toList,
   "LIST $,1     - List disks/mounts".toList,
   "LIST $$,0    - List program lines".toList,
   "LIST $,2     - List libraries".toList,
   "LIST $INF    - Show system info".toList,
   "LIST $$,T    - List variables".toList,
   "LIST $$      - List programs".toList]

/-- The result of parsing the first parameter of `LIST` (lines 241-269). -/
structure ListHead where
  dollar_count : Nat
  first_param : Int
  special_param : Text
  ptr : Text
  out : Out

/-- Lines 241-269 of `cmd_list`, from the text `ptr` that follows the leading
blanks. -/
def list_head (sys : MCLSystem) (ptr : Text) : ListHead :=
  let dollar_count : Nat := (ptr.takeWhile (fun c => c == '$')).length
  let temp := ptr.dropWhile (fun c => c == '$')
  if dollar_count > 0 then
    if starts_with temp "INF".toList then ⟨dollar_count, -1, "INF".toList, temp.drop 3, []⟩
    else if peek temp = ',' then ⟨dollar_count, -1, [], temp, []⟩
    else if isdigit (peek temp) then
      ⟨dollar_count, (evaluate_expression sys temp).value, [],
        (evaluate_expression sys temp).input, (evaluate_expression sys temp).out⟩
    else if peek temp = 'T' then ⟨dollar_count, -1, "T".toList, temp.drop 1, []⟩
    else ⟨dollar_count, -1, [], temp, []⟩
  else if isdigit (peek ptr) then
    ⟨dollar_count, (evaluate_expression sys ptr).value, [], (evaluate_expression sys ptr).input,
      (evaluate_expression sys ptr).out⟩
  else ⟨dollar_count, -1, [], ptr, []⟩

/-- Lines 271-279 of `cmd_list`: the second parameter and the output of its
evaluation. -/
def list_second (sys : MCLSystem) (ptr : Text) : Int × Out :=
  let ptr2 := skip_whitespace (skip_comma (skip_whitespace ptr))
  if ptr2 ≠ [] then ((evaluate_expression sys ptr2).value, (evaluate_expression sys ptr2).out)
  else (-1, [])

/-- Lines 282-379 of `cmd_list`: the report selected by the parameters. -/
def list_rows (env : Env) (sys : MCLSystem) (dollar_count : Nat) (first_param : Int)
    (special_param : Text) (second_param : Int) : Out :=
  if special_param = "INF".toList then
    match env.uname with
    | some u =>
      ["MCL System Information:".toList,
       "System: ".toList ++ u.sysname ++ " ".toList ++ u.release,
       "Machine: ".toList ++ u.machine,
       "Node: ".toList ++ u.nodename,
       "Time: ".toList ++ env.ctime,
       "Variables: ".toList ++ fmt_d sys.var_count ++ "/".toList ++ fmt_d MAX_VARS,
       "Program loaded: ".toList ++ (if sys.program_loaded then "Yes".toList else "No".toList)]
      ++ (if sys.program_loaded then
            ["Program: ".toList ++ sys.current_program ++ " (".toList ++
              fmt_d sys.program_size ++ " lines)".toList]
          else [])
    | none => []
  else if special_param = "T".toList then
    ["Variables:".toList] ++
      sys.variables.map (fun v => "$".toList ++ v.name ++ " = ".toList ++ fmt_d v.value)
  else if dollar_count = 2 ∧ second_param = 0 then
    ["Program lines:".toList] ++
      sys.program.map (fun l => fmt_d l.line_number ++ " ".toList ++ l.content)
  else if dollar_count = 2 ∧ second_param = -1 then
    match env.opendir with
    | some entries =>
      ["Programs/Scripts:".toList] ++
        (entries.filter (fun e =>
          strstr_found e.d_name ".mcl".toList || strstr_found e.d_name ".txt".toList)).map
          (fun e => e.d_name)
    | none => ["Error: Cannot access current directory".toList]
  else if first_param = 1 ∧ dollar_count = 1 then
    match env.opendir with
    | some entries =>
      ["Directories:".toList] ++
        (entries.filter (fun e => e.is_dir && peek e.d_name != '.')).map
          (fun e => e.d_name ++ "/".toList)
    | none => ["Error: Cannot access current directory".toList]
  else if dollar_count = 1 ∧ first_param = 1 then
    match env.fopen_read "/proc/mounts".toList with
    | some mounts => ["Mounted filesystems:".toList] ++ mount_lines (mounts.length + 1) mounts
    | none => ["Error: Cannot access mount information".toList]
  else if dollar_count = 1 ∧ second_param = 2 then
    ["Available libraries:".toList,
     "STDIO.LIB - Standard I/O functions".toList,
     "MATH.LIB - Mathematical functions".toList,
     "STRING.LIB - String manipulation".toList,
     "FILE.LIB - File operations".toList]
  else list_usage

/-- The function writes nothing to `mcl_system`: the state returned is the one
given. -/
def cmd_list (env : Env) (sys : MCLSystem) (args : Text) : MCLSystem × Out :=
  let h := list_head sys (skip_whitespace args)
  let s := list_second sys h.ptr
  (sys, h.out ++ s.2 ++ list_rows env sys h.dollar_count h.first_param h.special_param s.1)

/-- The loop of `cmd_load` (lines 418-426): `program` is the part of the
program array filled so far, `line_num` the next line number. -/
def load_loop : Nat → List Char → Int → List ProgramLine → List ProgramLine
  | 0, _, _, program => program
  | fuel + 1, file, line_num, program =>
    match fgets MAX_LINE_LENGTH file with
    | none => program
    | some (line, rest) =>
      if program.length < MAX_PROGRAMS then
        load_loop fuel rest (line_num + 10) (program ++ [⟨line_num, strip_newline line⟩])
      else program

/-- Lines 403-408 of `cmd_load`: the file name, from the text `ptr1` that
follows the leading sigils. -/
def load_filename (sys : MCLSystem) (ptr1 : Text) : Text :=
  match skip_whitespace (skip_comma (skip_whitespace (evaluate_expression sys ptr1).input)) with
  | '$' :: rest => rest
  | ptr2 => ptr2

/-- The command `LD` (lines 382-435).  The `strcpy` of the file name into
`current_program`, an array of `MAX_FILENAME` characters, is modelled for file
names of at most 255 characters. -/
def cmd_load (env : Env) (sys : MCLSystem) (args : Text) : MCLSystem × Out :=
  let ptr := skip_whitespace args
  let dollar_count : Nat := (ptr.takeWhile (fun c => c == '$')).length
  let ptr1 := ptr.dropWhile (fun c => c == '$')
  if dollar_count = 2 then
    (sys, ["Loading from disk: ".toList ++ skip_whitespace (skip_comma (skip_whitespace ptr1)),
           "Error: Disk loading not implemented in this version".toList])
  else
    let e := evaluate_expression sys ptr1
    let ptr3 := load_filename sys ptr1
    match env.fopen_read ptr3 with
    | some file =>
      let program := load_loop (MAX_PROGRAMS + 1) file 10 []
      (⟨e.sys.variables, program, ptr3, true⟩,
        e.out ++ ["Program loaded: ".toList ++ ptr3 ++ " (".toList ++
          fmt_d program.length ++ " lines)".toList])
    | none => (e.sys, e.out ++ ["Error: Cannot load file \x27".toList ++ ptr3 ++ "\x27".toList])

/-- The line written for one variable (line 454). -/
def save_line (v : Variable) : Text :=
  "INI $".toList ++ v.name ++ " ".toList ++ fmt_d v.value

/-- The lines written by the loop at lines 453-455. -/
def save_variables (sys : MCLSystem) : List Text := sys.variables.map save_line

/-- The lines written for the program (lines 458-463). -/
def save_comments (sys : MCLSystem) : List Text :=
  if sys.program_loaded then
    ("# Program: ".toList ++ sys.current_program) ::
      sys.program.map (fun l => "# ".toList ++ fmt_d l.line_number ++ " ".toList ++ l.content)
  else []

/-- The lines written to the file (lines 451-463). -/
def save_file (sys : MCLSystem) : List Text :=
  ["# MCL State File".toList, "# Variables".toList] ++ save_variables sys ++ save_comments sys

/-- The file name `cmd_save` uses (lines 441-446). -/
def save_filename (args : Text) : Text :=
  if skip_whitespace args ≠ [] then skip_whitespace args else "mcl_state.sav".toList

/-- Returns the state, the output and the file written (name and lines).  The
`strcpy` of the file name into `filename`, an array of 256 characters, is
modelled for file names of at most 255 characters. -/
def cmd_save (env : Env) (sys : MCLSystem) (args : Text) :
    MCLSystem × Out × Option (Text × List Text) :=
  if env.fopen_write (save_filename args) then
    (sys, ["State saved to: ".toList ++ save_filename args],
      some (save_filename args, save_file sys))
  else
    (sys, ["Error: Cannot save to file \x27".toList ++ save_filename args ++ "\x27".toList],
      none)

def cmd_edit (sys : MCLSystem) (args : Text) : MCLSystem × Out :=
  match skip_whitespace args with
  | '$' :: p1 =>
    if starts_with p1 "NUM".toList then
      let e := evaluate_expression sys (p1.drop 3)
      match e.sys.program.find? (fun l => l.line_number == e.value) with
      | some l => (e.sys, e.out ++ [fmt_d l.line_number ++ " ".toList ++ l.content])
      | none => (e.sys, e.out ++ ["Line ".toList ++ fmt_d e.value ++ " not found".toList])
    else (sys, ["Error: ED requires $NUM<line number>".toList])
  | _ => (sys, ["Error: ED requires $NUM<line number>".toList])

/-- The body of the loop of `cmd_run` for the program line `l` (lines 510-527). -/
def run_line (sys : MCLSystem) (l : ProgramLine) : MCLSystem × Out :=
  let executing := "Executing line ".toList ++ fmt_d l.line_number ++ ": ".toList ++ l.content
  let cmd_ptr := skip_whitespace l.content
  if starts_with cmd_ptr "PRINT".toList then
    (sys, [executing, "OUTPUT: ".toList ++ skip_whitespace (cmd_ptr.drop 5)])
  else if starts_with cmd_ptr "INI".toList then
    ((cmd_ini sys (cmd_ptr.drop 3)).1, executing :: (cmd_ini sys (cmd_ptr.drop 3)).2)
  else (sys, [executing, "Unknown program command: ".toList ++ l.content])

/-- The loop of `cmd_run` from index `i` on; `program[i]` and `program_size`
are read from the current state at every iteration. -/
def run_loop : Nat → MCLSystem → Nat → MCLSystem × Out
  | 0, sys, _ => (sys, [])
  | fuel + 1, sys, i =>
    match sys.program.get? i with
    | none => (sys, [])
    | some l =>
      ((run_loop fuel (run_line sys l).1 (i + 1)).1,
        (run_line sys l).2 ++ (run_loop fuel (run_line sys l).1 (i + 1)).2)

def cmd_run (sys : MCLSystem) (_args : Text) : MCLSystem × Out :=
  if sys.program_loaded = false then (sys, ["Error: No program loaded".toList])
  else
    ((run_loop sys.program_size sys 0).1,
      ["Running program: ".toList ++ sys.current_program] ++
        (run_loop sys.program_size sys 0).2 ++ ["Program execution completed".toList])

/-! ## Main command processor -/

def help_text : Out :=
  ["MCL Commands:".toList,
   "SUM <expr>,<expr>     - Add two values".toList,
   "SYB <expr>,<expr>     - Subtract two values".toList,
   "INI $<var> [value]    - Initialize variable".toList,
   "LIST 1,$              - List directories".toList,
   "LIST $,1              - List disks/mounts".toList,
   "LIST $$,0             - List program lines".toList,
   "LIST $,2              - List libraries".toList,
   "LIST $INF             - Show system info".toList,
   "LIST $$,T             - List variables".toList,
   "LIST $$               - List programs".toList,
   "LD 0,$<filename>      - Load program".toList,
   "SAVE [filename]       - Save state".toList,
   "ED $NUM<line>         - Edit/show line".toList,
   "$RUN                  - Run loaded program".toList,
   "EXIT                  - Exit MCL".toList]

/-- What one call of `process_command` does: the state it leaves, its output,
the file `SAVE` wrote, and whether it called `exit(0)`. -/
structure Outcome where
  sys : MCLSystem
  out : Out
  written : Option (Text × List Text)
  exited : Bool

def process_command (env : Env) (sys : MCLSystem) (input : Text) : Outcome :=
  let ptr := skip_whitespace input
  if starts_with ptr "SUM".toList then
    ⟨(cmd_sum sys (ptr.drop 3)).1, (cmd_sum sys (ptr.drop 3)).2, none, false⟩
  else if starts_with ptr "SYB".toList then
    ⟨(cmd_syb sys (ptr.drop 3)).1, (cmd_syb sys (ptr.drop 3)).2, none, false⟩
  else if starts_with ptr "INI".toList then
    ⟨(cmd_ini sys (ptr.drop 3)).1, (cmd_ini sys (ptr.drop 3)).2, none, false⟩
  else if starts_with ptr "LIST".toList then
    ⟨(cmd_list env sys (ptr.drop 4)).1, (cmd_list env sys (ptr.drop 4)).2, none, false⟩
  else if starts_with ptr "LD".toList then
    ⟨(cmd_load env sys (ptr.drop 2)).1, (cmd_load env sys (ptr.drop 2)).2, none, false⟩
  else if starts_with ptr "SAVE".toList then
    ⟨(cmd_save env sys (ptr.drop 4)).1, (cmd_save env sys (ptr.drop 4)).2.1,
      (cmd_save env sys (ptr.drop 4)).2.2, false⟩
  else if starts_with ptr "ED".toList then
    ⟨(cmd_edit sys (ptr.drop 2)).1, (cmd_edit sys (ptr.drop 2)).2, none, false⟩
  else if starts_with ptr "$RUN".toList then
    ⟨(cmd_run sys (ptr.drop 4)).1, (cmd_run sys (ptr.drop 4)).2, none, false⟩
  else if starts_with ptr "HELP".toList || starts_with ptr "?".toList then
    ⟨sys, help_text, none, false⟩
  else if starts_with ptr "EXIT".toList || starts_with ptr "QUIT".toList then
    ⟨sys, ["Goodbye from MCL!".toList], none, true⟩
  else if ptr = [] then ⟨sys, [], none, false⟩
  else ⟨sys, ["Unknown command: ".toList ++ ptr, "Type HELP for available commands".toList],
    none, false⟩

/-- The loop at lines 601-607 of `main`. -/
def upcase_line (input : Text) : Text :=
  input.map (fun c => if isalpha c && c != '$' then toupper c else c)

/-- One iteration of the loop of `main` on the standard input `stdin`: `none`
when `fgets` meets the end of the input, otherwise what `process_command` did
and the input left.  The prompt is not part of the output. -/
def main_iteration (env : Env) (sys : MCLSystem) (stdin : List Char) :
    Option (Outcome × List Char) :=
  match fgets MAX_LINE_LENGTH stdin with
  | none => none
  | some (input, rest) => some (process_command env sys (upcase_line (strip_newline input)), rest)

/-! ## Notions of the specification -/

/-- Decimal value of a string of digits. -/
def decimal_value (ds : Text) : Nat := ds.foldl (fun acc c => acc * 10 + (c.toNat - 48)) 0

/-- The value stored under `name`: that of the first variable with this name,
0 when there is none. -/
def stored_value (sys : MCLSystem) (name : Text) : Int :=
  match sys.variables.find? (fun v => decide (v.name = name)) with
  | some v => v.value
  | none => 0

def is_stored (sys : MCLSystem) (name : Text) : Bool :=
  sys.variables.any (fun v => decide (v.name = name))

/-- The diagnostic of `evaluate_expression` for a name that is not stored. -/
def not_found_message (name : Text) : Text :=
  "Error: Variable $".toList ++ name ++ " not found".toList

/-- An operand of `SUM` and `SYB` as the specification describes it. -/
inductive Operand where
  | lit (digits : Text)
  | ref (name : Text)
  | absent

/-- The way an operand is written. -/
def Operand.text : Operand → Text
  | Operand.lit digits => digits
  | Operand.ref name => '$' :: name
  | Operand.absent => []

/-- A literal is a non-empty string of digits whose value fits an `int`; a
reference names a variable by alphanumeric and underscore characters. -/
def Operand.wf : Operand → Prop
  | Operand.lit digits =>
    digits ≠ [] ∧ (∀ c ∈ digits, isdigit c = true) ∧ decimal_value digits < 2147483648
  | Operand.ref name => ∀ c ∈ name, name_char c = true
  | Operand.absent => True

/-- The value of an operand according to the specification. -/
def Operand.value (sys : MCLSystem) : Operand → Int
  | Operand.lit digits => (decimal_value digits : Int)
  | Operand.ref name => stored_value sys name
  | Operand.absent => 0

/-- The diagnostics printed while an operand is evaluated. -/
def Operand.diag (sys : MCLSystem) : Operand → Out
  | Operand.ref name => if is_stored sys name then [] else [not_found_message name]
  | _ => []

/-- The 32-bit `int` range. -/
def in_int_range (x : Int) : Prop := -2147483648 ≤ x ∧ x < 2147483648

/-- The value accumulated from `acc` over the digits `ds`, without overflow. -/
def decimal_from (acc : Nat) (ds : Text) : Nat :=
  ds.foldl (fun a c => a * 10 + (c.toNat - 48)) acc

/-- The value `cmd_ini` assigns, given the text `p2` that follows the name and
the blanks after it (lines 220-223). -/
def ini_value (sys : MCLSystem) (p2 : Text) : Int :=
  if p2 ≠ [] then (evaluate_expression sys p2).value else 0

/-- The diagnostics `cmd_ini` prints while it computes that value. -/
def ini_diag (sys : MCLSystem) (p2 : Text) : Out :=
  if p2 ≠ [] then (evaluate_expression sys p2).out else []

/-- The store with one more variable at its end. -/
def with_new_variable (sys : MCLSystem) (name : Text) (value : Int) : MCLSystem :=
  ⟨sys.variables ++ [⟨name, value, 1⟩], sys.program, sys.current_program, sys.program_loaded⟩

/-! ## Reachable states -/

/-- The states the interpreter can be in: the initial state, and the state any
call of `process_command` leaves, whatever the line and the environment. -/
inductive Reachable : MCLSystem → Prop where
  | init : Reachable mcl_init
  | step {sys : MCLSystem} (env : Env) (input : Text) :
    Reachable sys → Reachable (process_command env sys input).sys

/-- No two variables of the store have the same name. -/
def names_distinct (sys : MCLSystem) : Prop := (sys.variables.map Variable.name).Nodup

/-- The bytes of a text file made of the given lines, each ended by a newline,
except the last one when `final_newline` is false. -/
def file_of_lines : List Text → Bool → List Char
  | [], _ => []
  | [l], false => l
  | l :: ls, final_newline => l ++ '\n' :: file_of_lines ls final_newline

/-- The program lines made of the given texts, numbered from `n` in steps of 10. -/
def number_from (n : Int) : List Text → List ProgramLine
  | [] => []
  | l :: ls => ⟨n, l⟩ :: number_from (n + 10) ls

/-- A line of a text file that `fgets` reads in one call into a buffer of
`MAX_LINE_LENGTH` characters: fewer than 1023 characters, none of them a
newline or NUL. -/
def text_line (l : Text) : Prop := l.length < 1023 ∧ '\n' ∉ l ∧ '\x00' ∉ l

/-- An environment in which every file that is opened for reading holds the two
lines `PRINT HELLO` and `INI $A 1`. -/
def sample_env : Env :=
  ⟨fun _ => some (file_of_lines ["PRINT HELLO".toList, "INI $A 1".toList] true),
    fun _ => true, none, [], none⟩

/-! ## Running a program -/

/-- The loop of `cmd_run` over the lines `ls`, taken in order. -/
def run_lines (sys : MCLSystem) : List ProgramLine → MCLSystem × Out
  | [] => (sys, [])
  | l :: ls =>
    ((run_lines (run_line sys l).1 ls).1, (run_line sys l).2 ++ (run_lines (run_line sys l).1 ls).2)

/-- A character of a word: a letter, a digit, an underscore, or the sigil that
starts a name.  Digits that follow such a character continue a name (or a file
name); they are not a numeric literal. -/
def word_char (c : Char) : Bool := name_char c || c == '$'

/-- Every numeric literal of the text has a decimal value below 2^31.  A
numeric literal is a maximal run of digits that does not follow a character of
a word; `in_word` tells whether the character before the text is one. -/
def lits_from : Bool → Text → Bool
  | _, [] => true
  | in_word, c :: cs =>
    (in_word || !isdigit c ||
        decide (decimal_value ((c :: cs).takeWhile isdigit) < 2147483648)) &&
      lits_from (word_char c) cs

/-- Every numeric literal of the text (a whole line, or a whole file) is below
2^31.  In `INI $V99999999999 1` the only literal is `1`. -/
def lits_ok (t : Text) : Bool := lits_from false t

/-- The text is a part of a text whose numeric literals are below 2^31. -/
def lits_part (t : Text) : Prop := ∃ in_word, lits_from in_word t = true

/-- The bytes of the program file the line `input` loads: those `fopen` gives
for the file name of an `LD` command that is not of the `$$` form. -/
def ld_file (env : Env) (sys : MCLSystem) (input : Text) : Option (List Char) :=
  if starts_with (skip_whitespace input) "LD".toList = true ∧
      (((skip_whitespace ((skip_whitespace input).drop 2)).takeWhile
        (fun c => c == '$')).length ≠ 2) then
    env.fopen_read (load_filename sys
      ((skip_whitespace ((skip_whitespace input).drop 2)).dropWhile (fun c => c == '$')))
  else none

/-- The digits `cmd_ini` evaluates as the value on the arguments `args`: the run
of digits that follows the name and the blanks after it (empty when no digit
stands there). -/
def ini_literal (args : Text) : Text :=
  match skip_whitespace args with
  | '$' :: p1 => (skip_whitespace (p1.dropWhile name_char)).takeWhile isdigit
  | _ => []

/-- The line is no `INI` command, or the numeric literal it assigns is below
2^31. -/
def ini_literal_ok (line : Text) : Bool :=
  !starts_with (skip_whitespace line) "INI".toList ||
    decide (decimal_value (ini_literal ((skip_whitespace line).drop 3)) < 2147483648)

/-- The `INI` lines of the program that `cmd_load` makes of the file assign
literals below 2^31. -/
def file_literals_ok (file : List Char) : Bool :=
  (load_loop (MAX_PROGRAMS + 1) file 10 []).all (fun l => ini_literal_ok l.content)

/-- The states reachable by commands in which the numeric literal an `INI`
command assigns is below 2^31, on the line given to `process_command` and on
the lines of the program file it loads.  Commands whose numeric literals, and
those of the files they load, are all below 2^31 are such commands. -/
inductive ReachableLit : MCLSystem → Prop where
  | init : ReachableLit mcl_init
  | step {sys : MCLSystem} (env : Env) (input : Text) :
    ReachableLit sys → ini_literal_ok input = true →
    (∀ file, ld_file env sys input = some file → file_literals_ok file = true) →
    ReachableLit (process_command env sys input).sys

/-- A stored variable as `cmd_ini` makes it from a literal below 2^31: a name of
alphanumeric/underscore characters, a value in 0 .. 2^31 - 1, `used` set. -/
def var_ok (v : Variable) : Prop :=
  (∀ c ∈ v.name, name_char c = true) ∧ 0 ≤ v.value ∧ v.value < 2147483648 ∧ v.used = 1

/-- A store of distinct names, each variable as `var_ok` says, within capacity. -/
def store_ok (sys : MCLSystem) : Prop :=
  names_distinct sys ∧ (∀ v ∈ sys.variables, var_ok v) ∧ sys.var_count ≤ MAX_VARS

/-- The invariant of the states of `ReachableLit`. -/
def lit_inv (sys : MCLSystem) : Prop :=
  store_ok sys ∧ ∀ l ∈ sys.program, ini_literal_ok l.content = true

/-! ## Names that fit their array -/

/-- The name, with its terminator, fits a `char[MAX_VAR_NAME]`: it has at most
31 characters. -/
def name_fits (name : Text) : Bool := decide (name.length < MAX_VAR_NAME)

/-- Every variable name written in the text fits a `char[MAX_VAR_NAME]`: after
each sigil, the run of alphanumeric/underscore characters has at most 31
characters.  These runs are the names `cmd_ini` and `evaluate_expression` copy
into `var_name` and `create_variable` into `Variable.name`. -/
def names_fit : Text → Bool
  | [] => true
  | c :: cs => (c != '$' || name_fits (cs.takeWhile name_char)) && names_fit cs

/-- The operand, when it is a reference, has a name of at most 31 characters. -/
def Operand.fits : Operand → Prop
  | Operand.ref name => name.length < MAX_VAR_NAME
  | _ => True

/-- The states reachable by commands whose variable names have at most 31
characters, those of the lines of the program files they load included. -/
inductive ReachableFit : MCLSystem → Prop where
  | init : ReachableFit mcl_init
  | step {sys : MCLSystem} (env : Env) (input : Text) :
    ReachableFit sys → names_fit input = true →
    (∀ file, ld_file env sys input = some file → names_fit file = true) →
    ReachableFit (process_command env sys input).sys

/-- The states reachable by commands that satisfy both conditions: those of
`ReachableLit` on the literals and those of `ReachableFit` on the names. -/
inductive ReachableLitFit : MCLSystem → Prop where
  | init : ReachableLitFit mcl_init
  | step {sys : MCLSystem} (env : Env) (input : Text) :
    ReachableLitFit sys → ini_literal_ok input = true → names_fit input = true →
    (∀ file, ld_file env sys input = some file →
      file_literals_ok file = true ∧ names_fit file = true) →
    ReachableLitFit (process_command env sys input).sys

/-- A variable name of 200 letters. -/
def very_long_name : Text := List.replicate 200 'A'

/-- A variable name of 40 characters. -/
def overlong_name : Text := "ABCDEFGHIJKLMNOPQRSTUVWXYZ0123456789ABCD".toList

/-- An environment in which every file that is opened for reading holds one
line of 1023 characters `A`, ended by a newline. -/
def long_line_env : Env :=
  ⟨fun _ => some (List.replicate 1023 'A' ++ ['\n']), fun _ => true, none, [], none⟩

/-- Feeds the lines, in order, to `process_command`. -/
def replay (env : Env) (sys : MCLSystem) : List Text → MCLSystem
  | [] => sys
  | l :: ls => replay env (process_command env sys l).sys ls

/-! ## The dispatcher -/

/-- An environment without files, directory or system information. -/
def null_env : Env := ⟨fun _ => none, fun _ => false, none, [], none⟩

/-- The verbs of the command table that are words. -/
def verbs : List Text :=
  ["SUM".toList, "SYB".toList, "INI".toList, "LIST".toList, "LD".toList, "SAVE".toList,
    "ED".toList, "HELP".toList, "EXIT".toList, "QUIT".toList]

/-- The leading keyword of a line: the maximal run of letters at its start,
after the leading blanks. -/
def leading_keyword (line : Text) : Text := (skip_whitespace line).takeWhile isalpha

/-- A variable name of 32 characters, one more than a `char[MAX_VAR_NAME]`
holds before its terminator. -/
def long_name : Text := "ABCDEFGHIJKLMNOPQRSTUVWXYZ012345".toList

/-! ## The runner and the interactive path -/

/-- An environment in which every file that is opened for reading holds the
single line `INI $A 4294967295`. -/
def overflow_env : Env :=
  ⟨fun _ => some "INI $A 4294967295\n".toList, fun _ => true, none, [], none⟩

/-! # Theorems -/

/-! ## Characters -/

theorem isspace_toNat {c : Char} (h : isspace c = true) :
    c.toNat = 32 ∨ c.toNat = 9 ∨ c.toNat = 10 ∨ c.toNat = 11 ∨ c.toNat = 12 ∨ c.toNat = 13 := by
  simp only [isspace, Bool.or_eq_true, beq_iff_eq] at h
  rcases h with ((((h | h) | h) | h) | h) | h <;> subst h <;> decide

theorem isdigit_iff {c : Char} : isdigit c = true ↔ 48 ≤ c.toNat ∧ c.toNat ≤ 57 := by
  simp [isdigit]

theorem not_isspace_of_isdigit {c : Char} (h : isdigit c = true) : isspace c = false := by
  rw [isdigit_iff] at h
  cases hs : isspace c with
  | false => rfl
  | true => have := isspace_toNat hs; omega

theorem name_char_toNat {c : Char} (h : name_char c = true) :
    (48 ≤ c.toNat ∧ c.toNat ≤ 57) ∨ (65 ≤ c.toNat ∧ c.toNat ≤ 90) ∨
      (97 ≤ c.toNat ∧ c.toNat ≤ 122) ∨ c.toNat = 95 := by
  simp only [name_char, isalnum, isalpha, isupper, islower, isdigit, Bool.or_eq_true,
    Bool.and_eq_true, decide_eq_true_eq, beq_iff_eq] at h
  rcases h with ((h | h) | h) | h
  · exact Or.inr (Or.inl h)
  · exact Or.inr (Or.inr (Or.inl h))
  · exact Or.inl h
  · subst h; exact Or.inr (Or.inr (Or.inr (by decide)))

theorem not_isspace_of_name_char {c : Char} (h : name_char c = true) : isspace c = false := by
  have h1 := name_char_toNat h
  cases hs : isspace c with
  | false => rfl
  | true => have := isspace_toNat hs; omega

theorem name_char_of_isdigit {c : Char} (h : isdigit c = true) : name_char c = true := by
  simp [name_char, isalnum, h]

/-! ## Scanning -/

theorem skip_whitespace_append {ws t : Text} (h : ∀ c ∈ ws, isspace c = true) :
    skip_whitespace (ws ++ t) = skip_whitespace t := by
  induction ws with
  | nil => rfl
  | cons c cs ih =>
    have hc : isspace c = true := h c (List.mem_cons_self _ _)
    have hcs : ∀ x ∈ cs, isspace x = true := fun x hx => h x (List.mem_cons_of_mem _ hx)
    simp only [skip_whitespace, List.cons_append, List.dropWhile_cons, hc, if_true]
    exact ih hcs

theorem skip_whitespace_cons_of_not {c : Char} {t : Text} (h : isspace c = false) :
    skip_whitespace (c :: t) = c :: t := by
  simp [skip_whitespace, List.dropWhile_cons, h]

theorem skip_whitespace_nil : skip_whitespace [] = [] := rfl

theorem skip_whitespace_idem (t : Text) : skip_whitespace (skip_whitespace t) = skip_whitespace t := by
  induction t with
  | nil => rfl
  | cons c cs ih =>
    cases hc : isspace c with
    | true => simpa [skip_whitespace, List.dropWhile_cons, hc] using ih
    | false => simp [skip_whitespace, List.dropWhile_cons, hc]

theorem takeWhile_append_of_stop {p : Char → Bool} {xs rest : Text} (hxs : ∀ c ∈ xs, p c = true)
    (hrest : ∀ c ∈ rest.head?, p c = false) : (xs ++ rest).takeWhile p = xs := by
  induction xs with
  | nil =>
    cases rest with
    | nil => rfl
    | cons r rs => simp [List.takeWhile_cons, hrest r (by simp)]
  | cons c cs ih =>
    have hc := hxs c (List.mem_cons_self _ _)
    simp only [List.cons_append, List.takeWhile_cons, hc, if_true]
    rw [ih (fun x hx => hxs x (List.mem_cons_of_mem _ hx))]

theorem dropWhile_append_of_stop {p : Char → Bool} {xs rest : Text} (hxs : ∀ c ∈ xs, p c = true)
    (hrest : ∀ c ∈ rest.head?, p c = false) : (xs ++ rest).dropWhile p = rest := by
  induction xs with
  | nil =>
    cases rest with
    | nil => rfl
    | cons r rs => simp [List.dropWhile_cons, hrest r (by simp)]
  | cons c cs ih =>
    have hc := hxs c (List.mem_cons_self _ _)
    simp only [List.cons_append, List.dropWhile_cons, hc, if_true]
    exact ih (fun x hx => hxs x (List.mem_cons_of_mem _ hx))

/-! ## Decimal literals -/

theorem decimal_value_eq (ds : Text) : decimal_value ds = decimal_from 0 ds := rfl

theorem decimal_from_cons (acc : Nat) (c : Char) (ds : Text) :
    decimal_from acc (c :: ds) = decimal_from (acc * 10 + (c.toNat - 48)) ds := rfl

theorem le_decimal_from (acc : Nat) (ds : Text) : acc ≤ decimal_from acc ds := by
  induction ds generalizing acc with
  | nil => exact Nat.le_refl _
  | cons c cs ih =>
    rw [decimal_from_cons]
    have := ih (acc * 10 + (c.toNat - 48))
    omega

theorem decimal_from_mono {a b : Nat} (h : a ≤ b) (ds : Text) :
    decimal_from a ds ≤ decimal_from b ds := by
  induction ds generalizing a b with
  | nil => exact h
  | cons c cs ih =>
    rw [decimal_from_cons, decimal_from_cons]
    exact ih (by omega)

theorem decimal_from_append (acc : Nat) (xs ys : Text) :
    decimal_from acc (xs ++ ys) = decimal_from (decimal_from acc xs) ys := by
  simp [decimal_from, List.foldl_append]

theorem wrap32_of_range {x : Int} (h0 : -2147483648 ≤ x) (h1 : x < 2147483648) : wrap32 x = x := by
  unfold wrap32
  omega

theorem eval_digits_nondigit (v : Int) {rest : Text} (h : ∀ c ∈ rest.head?, isdigit c = false) :
    eval_digits v rest = (v, rest) := by
  cases rest with
  | nil => rfl
  | cons r rs => simp [eval_digits, h r (by simp)]

/-- The digit loop computes the decimal value as long as it fits an `int`. -/
theorem eval_digits_append (acc : Nat) (ds rest : Text) (hds : ∀ c ∈ ds, isdigit c = true)
    (hrest : ∀ c ∈ rest.head?, isdigit c = false) (hfit : decimal_from acc ds < 2147483648) :
    eval_digits (acc : Int) (ds ++ rest) = (((decimal_from acc ds : Nat) : Int), rest) := by
  induction ds generalizing acc with
  | nil => simpa [decimal_from] using eval_digits_nondigit (acc : Int) hrest
  | cons c cs ih =>
    have hc := hds c (List.mem_cons_self _ _)
    have hc2 := isdigit_iff.mp hc
    rw [decimal_from_cons] at hfit ⊢
    have hle := le_decimal_from (acc * 10 + (c.toNat - 48)) cs
    have hcast : ((acc : Int) * 10 + ((c.toNat : Int) - 48)) = ((acc * 10 + (c.toNat - 48) : Nat) : Int) := by
      omega
    simp only [List.cons_append, eval_digits, hc, if_true]
    rw [hcast, wrap32_of_range (by omega) (by omega)]
    exact ih _ (fun x hx => hds x (List.mem_cons_of_mem _ hx)) hfit

/-! ## Variable lookup -/

theorem find_from_none_iff (name : Text) (vs : List Variable) (i : Nat) :
    find_from name vs i = none ↔ ∀ v ∈ vs, v.name ≠ name := by
  induction vs generalizing i with
  | nil => simp [find_from]
  | cons v vs ih =>
    by_cases hv : v.name = name
    · simp [find_from, hv]
    · simp [find_from, hv, ih]

theorem find_from_some {name : Text} {vs : List Variable} {i j : Nat}
    (h : find_from name vs i = some j) :
    i ≤ j ∧ ∃ v, vs.get? (j - i) = some v ∧ v.name = name ∧
      vs.find? (fun v => decide (v.name = name)) = some v := by
  induction vs generalizing i with
  | nil => simp [find_from] at h
  | cons v vs ih =>
    by_cases hv : v.name = name
    · simp only [find_from, hv, if_true, Option.some.injEq] at h
      subst h
      exact ⟨Nat.le_refl _, v, by simp, hv, by simp [List.find?_cons, hv]⟩
    · simp only [find_from, hv, if_false] at h
      obtain ⟨hle, w, hget, hname, hfind⟩ := ih h
      refine ⟨by omega, w, ?_, hname, by simp [List.find?_cons, hv, hfind]⟩
      have : j - i = (j - (i + 1)) + 1 := by omega
      rw [this]
      simpa using hget

theorem find_variable_none_iff (sys : MCLSystem) (name : Text) :
    find_variable sys name = none ↔ ∀ v ∈ sys.variables, v.name ≠ name :=
  find_from_none_iff name sys.variables 0

theorem find_variable_some {sys : MCLSystem} {name : Text} {i : Nat}
    (h : find_variable sys name = some i) :
    ∃ v, sys.variables.get? i = some v ∧ v.name = name ∧
      sys.variables.find? (fun v => decide (v.name = name)) = some v := by
  obtain ⟨_, v, hget, hname, hfind⟩ := find_from_some h
  exact ⟨v, by simpa using hget, hname, hfind⟩

theorem var_value_of_find {sys : MCLSystem} {name : Text} {i : Nat}
    (h : find_variable sys name = some i) :
    var_value sys i = stored_value sys name ∧ is_stored sys name = true := by
  obtain ⟨v, hget, hname, hfind⟩ := find_variable_some h
  refine ⟨by unfold var_value stored_value; rw [hget, hfind], ?_⟩
  simp only [is_stored, List.any_eq_true, decide_eq_true_eq]
  exact ⟨v, List.mem_of_find?_eq_some hfind, hname⟩

theorem stored_value_of_not_found {sys : MCLSystem} {name : Text}
    (h : find_variable sys name = none) :
    stored_value sys name = 0 ∧ is_stored sys name = false := by
  rw [find_variable_none_iff] at h
  constructor
  · have : sys.variables.find? (fun v => decide (v.name = name)) = none := by
      simp only [List.find?_eq_none, decide_eq_true_eq]
      exact h
    simp [stored_value, this]
  · simp only [is_stored, List.any_eq_false, decide_eq_true_eq]
    exact h

/-! ## `evaluate_expression` -/

theorem isspace_dollar : isspace '$' = false := by decide

theorem isspace_comma : isspace ',' = false := by decide

theorem isdigit_comma : isdigit ',' = false := by decide

theorem name_char_comma : name_char ',' = false := by decide

theorem evaluate_expression_skip {sys : MCLSystem} {ws t : Text}
    (h : ∀ c ∈ ws, isspace c = true) :
    evaluate_expression sys (ws ++ t) = evaluate_expression sys t := by
  simp only [evaluate_expression, skip_whitespace_append h]

/-- A `$name` reference: the stored value, or 0 with a diagnostic. -/
theorem evaluate_expression_dollar (sys : MCLSystem) (t : Text) :
    evaluate_expression sys ('$' :: t) =
      ⟨stored_value sys (t.takeWhile name_char), t.dropWhile name_char, sys,
        if is_stored sys (t.takeWhile name_char) then []
        else [not_found_message (t.takeWhile name_char)]⟩ := by
  simp only [evaluate_expression, skip_whitespace_cons_of_not isspace_dollar, if_true]
  cases h : find_variable sys (t.takeWhile name_char) with
  | none =>
    obtain ⟨h1, h2⟩ := stored_value_of_not_found h
    simp [h1, h2, not_found_message]
  | some i =>
    obtain ⟨h1, h2⟩ := var_value_of_find h
    simp [h1, h2]

/-- A decimal literal that fits an `int`. -/
theorem evaluate_expression_digits (sys : MCLSystem) (ds rest : Text) (hne : ds ≠ [])
    (hds : ∀ c ∈ ds, isdigit c = true) (hrest : ∀ c ∈ rest.head?, isdigit c = false)
    (hfit : decimal_value ds < 2147483648) :
    evaluate_expression sys (ds ++ rest) = ⟨(decimal_value ds : Int), rest, sys, []⟩ := by
  cases ds with
  | nil => exact absurd rfl hne
  | cons d ds =>
    have hd := hds d (List.mem_cons_self _ _)
    have hdol : d ≠ '$' := by
      intro h; subst h; exact absurd hd (by decide)
    have key := eval_digits_append 0 (d :: ds) rest hds hrest (by simpa [decimal_value_eq] using hfit)
    simp only [Nat.cast_zero] at key
    simp only [evaluate_expression, List.cons_append,
      skip_whitespace_cons_of_not (not_isspace_of_isdigit hd), hdol, if_false, hd, if_true]
    rw [← List.cons_append, key]
    rfl

/-- Anything that starts with neither `$` nor a digit: 0, nothing consumed. -/
theorem evaluate_expression_other (sys : MCLSystem) (t : Text)
    (h : ∀ c ∈ (skip_whitespace t).head?, c ≠ '$' ∧ isdigit c = false) :
    evaluate_expression sys t = ⟨0, skip_whitespace t, sys, []⟩ := by
  unfold evaluate_expression
  cases hs : skip_whitespace t with
  | nil => rfl
  | cons c cs =>
    rw [hs] at h
    obtain ⟨h1, h2⟩ := h c (by simp)
    simp [h1, h2]

/-! ## SUM and SYB -/

theorem head_sep {ws rest : Text} (hws : ∀ c ∈ ws, isspace c = true)
    (hrest : rest = [] ∨ ∃ r, rest = ',' :: r) :
    ∀ c ∈ (ws ++ rest).head?, isspace c = true ∨ c = ',' := by
  intro c hc
  cases ws with
  | nil =>
    rcases hrest with h | ⟨r, h⟩
    · subst h; simp at hc
    · subst h; simp at hc; exact Or.inr hc.symm
  | cons w ws =>
    simp at hc
    subst hc
    exact Or.inl (hws _ (List.mem_cons_self _ _))

theorem skip_whitespace_sep {rest : Text} (hrest : rest = [] ∨ ∃ r, rest = ',' :: r) :
    skip_whitespace rest = rest := by
  rcases hrest with h | ⟨r, h⟩
  · subst h; rfl
  · subst h; exact skip_whitespace_cons_of_not isspace_comma

/-- What `evaluate_expression` does on an operand followed by blanks and then
by a comma or the end of the text. -/
theorem evaluate_operand (sys : MCLSystem) (o : Operand) (ho : o.wf) (ws ws' rest : Text)
    (hws : ∀ c ∈ ws, isspace c = true) (hws' : ∀ c ∈ ws', isspace c = true)
    (hrest : rest = [] ∨ ∃ r, rest = ',' :: r) :
    (evaluate_expression sys (ws ++ o.text ++ ws' ++ rest)).value = o.value sys ∧
    (evaluate_expression sys (ws ++ o.text ++ ws' ++ rest)).out = o.diag sys ∧
    (evaluate_expression sys (ws ++ o.text ++ ws' ++ rest)).sys = sys ∧
    skip_whitespace (evaluate_expression sys (ws ++ o.text ++ ws' ++ rest)).input = rest := by
  have hsep := head_sep hws' hrest
  have hskip : skip_whitespace (ws' ++ rest) = rest := by
    rw [skip_whitespace_append hws', skip_whitespace_sep hrest]
  rw [List.append_assoc, List.append_assoc, evaluate_expression_skip hws]
  cases o with
  | lit ds =>
    obtain ⟨hne, hds, hfit⟩ := ho
    have hstop : ∀ c ∈ (ws' ++ rest).head?, isdigit c = false := by
      intro c hc
      rcases hsep c hc with h | h
      · cases hd : isdigit c with
        | false => rfl
        | true => rw [not_isspace_of_isdigit hd] at h; cases h
      · subst h; exact isdigit_comma
    simp only [Operand.text, Operand.value, Operand.diag]
    rw [evaluate_expression_digits sys ds (ws' ++ rest) hne hds hstop hfit]
    exact ⟨rfl, rfl, rfl, hskip⟩
  | ref name =>
    have hstop : ∀ c ∈ (ws' ++ rest).head?, name_char c = false := by
      intro c hc
      rcases hsep c hc with h | h
      · cases hd : name_char c with
        | false => rfl
        | true => rw [not_isspace_of_name_char hd] at h; cases h
      · subst h; exact name_char_comma
    simp only [Operand.text, Operand.value, Operand.diag, List.cons_append]
    rw [evaluate_expression_dollar, takeWhile_append_of_stop ho hstop,
      dropWhile_append_of_stop ho hstop]
    exact ⟨rfl, rfl, rfl, hskip⟩
  | absent =>
    simp only [Operand.text, Operand.value, Operand.diag, List.nil_append]
    have hother : ∀ c ∈ (skip_whitespace (ws' ++ rest)).head?, c ≠ '$' ∧ isdigit c = false := by
      rw [hskip]
      intro c hc
      rcases hrest with h | ⟨r, h⟩
      · subst h; simp at hc
      · subst h
        simp at hc
        subst hc
        exact ⟨by decide, by decide⟩
    rw [evaluate_expression_other sys _ hother, hskip]
    exact ⟨rfl, rfl, rfl, skip_whitespace_sep hrest⟩

/-- C1: on `a,b` (blanks allowed around the operands), with operands whose
names have at most 31 characters, `cmd_sum` prints value(a)+value(b) and
`cmd_syb` prints value(a)-value(b), after the not-found diagnostics of the
operands, where a literal has its decimal value, `$name` the stored value of
`name` (0 if not stored) and an absent operand is 0, the result being in the
`int` range; the state is unchanged.  `SUM 3,4` prints 7, `SYB 10,4` prints 6
and `SUM $A,5` after `INI $A 10` prints 15.  The bound on the names is what the
array `var_name` holds: the reference to `very_long_name`, a name of 200
letters, is an operand that does not fit it. -/
theorem cmd_sum_syb_operands (env : Env) (sys : MCLSystem) (a b : Operand) (ws1 ws2 ws3 : Text)
    (h1 : ∀ c ∈ ws1, isspace c = true) (h2 : ∀ c ∈ ws2, isspace c = true)
    (h3 : ∀ c ∈ ws3, isspace c = true) (ha : a.wf) (hb : b.wf)
    (_hfa : a.fits) (_hfb : b.fits) :
    (in_int_range (a.value sys + b.value sys) →
      cmd_sum sys (ws1 ++ a.text ++ ws2 ++ ',' :: (ws3 ++ b.text)) =
        (sys, a.diag sys ++ b.diag sys ++ [fmt_d (a.value sys + b.value sys)])) ∧
    (in_int_range (a.value sys - b.value sys) →
      cmd_syb sys (ws1 ++ a.text ++ ws2 ++ ',' :: (ws3 ++ b.text)) =
        (sys, a.diag sys ++ b.diag sys ++ [fmt_d (a.value sys - b.value sys)])) ∧
    (process_command env mcl_init "SUM 3,4".toList).out = ["7".toList] ∧
    (process_command env mcl_init "SYB 10,4".toList).out = ["6".toList] ∧
    (process_command env (process_command env mcl_init "INI $A 10".toList).sys
      "SUM $A,5".toList).out = ["15".toList] ∧
    (Operand.ref very_long_name).wf ∧ ¬ (Operand.ref very_long_name).fits := by
  obtain ⟨a1, a2, a3, a4⟩ :=
    evaluate_operand sys a ha ws1 ws2 (',' :: (ws3 ++ b.text)) h1 h2 (Or.inr ⟨_, rfl⟩)
  have hb' := evaluate_operand sys b hb ws3 [] [] h3 (by simp) (Or.inl rfl)
  simp only [List.append_nil] at hb'
  obtain ⟨b1, b2, b3, _⟩ := hb'
  have hini : (process_command env mcl_init "INI $A 10".toList).sys =
      ⟨[⟨"A".toList, 10, 1⟩], [], [], false⟩ := rfl
  refine ⟨?_, ?_, rfl, rfl, by rw [hini]; rfl, ?_, ?_⟩
  · intro hr
    simp only [cmd_sum, a1, a2, a3, a4, skip_comma, b1, b2, b3]
    rw [wrap32_of_range hr.1 hr.2]
  · intro hr
    simp only [cmd_syb, a1, a2, a3, a4, skip_comma, b1, b2, b3]
    rw [wrap32_of_range hr.1 hr.2]
  · intro c hc
    rw [very_long_name, List.mem_replicate] at hc
    rw [hc.2]
    decide
  · simp only [Operand.fits, very_long_name, List.length_replicate, MAX_VAR_NAME]
    decide

theorem cmd_sum_syb_operands_witness :
    cmd_sum mcl_init (" ".toList ++ (Operand.lit "3".toList).text ++ [] ++
        ',' :: ([] ++ (Operand.ref "A".toList).text)) =
      (mcl_init, [not_found_message "A".toList] ++ ["3".toList]) :=
  (cmd_sum_syb_operands ⟨fun _ => none, fun _ => false, none, [], none⟩ mcl_init
    (Operand.lit "3".toList) (Operand.ref "A".toList) " ".toList [] []
    (by decide) (by decide) (by decide)
    (by unfold Operand.wf; decide) (by unfold Operand.wf; decide)
    (by unfold Operand.fits; trivial) (by unfold Operand.fits; decide)).1
    (by unfold in_int_range; decide)

/-! ## The variable store -/

theorem evaluate_expression_sys (sys : MCLSystem) (input : Text) :
    (evaluate_expression sys input).sys = sys := by
  unfold evaluate_expression
  split
  · rfl
  · split
    · dsimp only
      split <;> rfl
    · split <;> rfl

theorem set_at_length (vs : List Variable) (i : Nat) (x : Int) :
    (set_at vs i x).length = vs.length := by
  induction vs generalizing i with
  | nil => rfl
  | cons v vs ih => cases i <;> simp [set_at, ih]

theorem set_at_names (vs : List Variable) (i : Nat) (x : Int) :
    (set_at vs i x).map Variable.name = vs.map Variable.name := by
  induction vs generalizing i with
  | nil => rfl
  | cons v vs ih => cases i <;> simp [set_at, ih]

theorem set_at_get_ne (vs : List Variable) {i j : Nat} (x : Int) (h : j ≠ i) :
    (set_at vs i x)[j]? = vs[j]? := by
  induction vs generalizing i j with
  | nil => rfl
  | cons v vs ih =>
    cases i with
    | zero =>
      cases j with
      | zero => exact absurd rfl h
      | succ j => simp [set_at]
    | succ i =>
      cases j with
      | zero => simp [set_at]
      | succ j => simpa [set_at] using ih (by omega)

theorem set_at_get_eq (vs : List Variable) {i : Nat} {v : Variable} (x : Int)
    (h : vs[i]? = some v) : (set_at vs i x)[i]? = some ⟨v.name, x, v.used⟩ := by
  induction vs generalizing i with
  | nil => simp at h
  | cons w vs ih =>
    cases i with
    | zero => simp at h; subst h; simp [set_at]
    | succ i => simp at h; simpa [set_at] using ih h

theorem find_from_set_at (name : Text) (vs : List Variable) (i k : Nat) (x : Int) :
    find_from name (set_at vs i x) k = find_from name vs k := by
  induction vs generalizing i k with
  | nil => rfl
  | cons v vs ih =>
    cases i with
    | zero => simp [set_at, find_from]
    | succ i => simp [set_at, find_from, ih]

theorem set_at_append_last (vs : List Variable) (w : Variable) (x : Int) :
    set_at (vs ++ [w]) vs.length x = vs ++ [⟨w.name, x, w.used⟩] := by
  induction vs with
  | nil => rfl
  | cons v vs ih => simp [set_at, ih]

theorem find_from_append_new (name : Text) (vs : List Variable) (w : Variable) (k : Nat)
    (hnone : find_from name vs k = none) (hw : w.name = name) :
    find_from name (vs ++ [w]) k = some (k + vs.length) := by
  induction vs generalizing k with
  | nil => simp [find_from, hw]
  | cons v vs ih =>
    by_cases hv : v.name = name
    · simp [find_from, hv] at hnone
    · simp only [find_from, hv, if_false] at hnone
      have h1 := ih (k + 1) hnone
      rw [List.cons_append, find_from, if_neg hv, h1, List.length_cons]
      congr 1
      omega

theorem create_variable_full {sys : MCLSystem} (name : Text) (h : sys.var_count ≥ MAX_VARS) :
    create_variable sys name = (sys, none, ["Error: Maximum variables exceeded".toList]) := by
  simp only [create_variable, h, if_true]

theorem create_variable_room {sys : MCLSystem} (name : Text) (h : ¬ sys.var_count ≥ MAX_VARS) :
    create_variable sys name = (with_new_variable sys name 0, some sys.var_count, []) := by
  simp only [create_variable, h, if_false, with_new_variable]

theorem set_value_new (sys : MCLSystem) (name : Text) (x : Int) :
    set_value (with_new_variable sys name 0) sys.var_count x = with_new_variable sys name x := by
  simp only [set_value, with_new_variable, MCLSystem.var_count, set_at_append_last]

/-- What `cmd_ini` does once it has met the sigil. -/
theorem cmd_ini_dollar (sys : MCLSystem) (p1 : Text) :
    cmd_ini sys ('$' :: p1) =
      match find_variable sys (p1.takeWhile name_char) with
      | some i =>
        (set_value sys i (ini_value sys (skip_whitespace (p1.dropWhile name_char))),
          ini_diag sys (skip_whitespace (p1.dropWhile name_char)) ++
            [ini_message (p1.takeWhile name_char)
              (ini_value sys (skip_whitespace (p1.dropWhile name_char)))])
      | none =>
        if sys.var_count ≥ MAX_VARS then
          (sys, ini_diag sys (skip_whitespace (p1.dropWhile name_char)) ++
            ["Error: Maximum variables exceeded".toList])
        else
          (with_new_variable sys (p1.takeWhile name_char)
              (ini_value sys (skip_whitespace (p1.dropWhile name_char))),
            ini_diag sys (skip_whitespace (p1.dropWhile name_char)) ++
              [ini_message (p1.takeWhile name_char)
                (ini_value sys (skip_whitespace (p1.dropWhile name_char)))]) := by
  simp only [cmd_ini, skip_whitespace_cons_of_not isspace_dollar, ini_value, ini_diag]
  by_cases hp : skip_whitespace (p1.dropWhile name_char) = []
  · simp only [hp, ne_eq, not_true_eq_false, if_false]
    cases hf : find_variable sys (p1.takeWhile name_char) with
    | some i => simp
    | none =>
      by_cases hfull : sys.var_count ≥ MAX_VARS
      · simp only [create_variable_full _ hfull, hfull, if_true, List.append_assoc]
      · simp only [create_variable_room _ hfull, hfull, if_false, set_value_new,
          List.append_nil, List.nil_append]
  · simp only [hp, ne_eq, not_false_eq_true, if_true, evaluate_expression_sys]
    cases hf : find_variable sys (p1.takeWhile name_char) with
    | some i => simp
    | none =>
      by_cases hfull : sys.var_count ≥ MAX_VARS
      · simp only [create_variable_full _ hfull, hfull, if_true, List.append_assoc]
      · simp only [create_variable_room _ hfull, hfull, if_false, set_value_new,
          List.append_nil, List.nil_append]

/-! ## INI -/

/-- The arguments `$name v` of `INI`, with the blanks `ws1` before the sigil and
the blanks `ws2` between the name and the literal, are parsed as the name and
the value of the literal. -/
theorem cmd_ini_name_literal (sys : MCLSystem) (name digits ws1 ws2 : Text)
    (hname : ∀ c ∈ name, name_char c = true) (hne : digits ≠ [])
    (hdig : ∀ c ∈ digits, isdigit c = true) (hfit : decimal_value digits < 2147483648)
    (hws1 : ∀ c ∈ ws1, isspace c = true) (hws2 : ∀ c ∈ ws2, isspace c = true)
    (hsep : ws2 ≠ []) :
    cmd_ini sys (ws1 ++ '$' :: (name ++ ws2 ++ digits)) =
      match find_variable sys name with
      | some i =>
        (set_value sys i (decimal_value digits), [ini_message name (decimal_value digits)])
      | none =>
        if sys.var_count ≥ MAX_VARS then (sys, ["Error: Maximum variables exceeded".toList])
        else (with_new_variable sys name (decimal_value digits),
          [ini_message name (decimal_value digits)]) := by
  have hstop : ∀ c ∈ (ws2 ++ digits).head?, name_char c = false := by
    intro c hc
    cases ws2 with
    | nil => exact absurd rfl hsep
    | cons w ws =>
      have hcw : c = w := by simpa using hc.symm
      subst hcw
      have hw := hws2 c (List.mem_cons_self _ _)
      cases hn : name_char c with
      | false => rfl
      | true => rw [not_isspace_of_name_char hn] at hw; cases hw
  have hskip : skip_whitespace (ws2 ++ digits) = digits := by
    rw [skip_whitespace_append hws2]
    cases digits with
    | nil => exact absurd rfl hne
    | cons d ds =>
      exact skip_whitespace_cons_of_not (not_isspace_of_isdigit (hdig d (List.mem_cons_self _ _)))
  have heval := evaluate_expression_digits sys digits [] hne hdig (by simp) hfit
  rw [List.append_nil] at heval
  have hcmd : cmd_ini sys (ws1 ++ '$' :: (name ++ ws2 ++ digits)) =
      cmd_ini sys ('$' :: (name ++ ws2 ++ digits)) := by
    simp only [cmd_ini, skip_whitespace_append hws1]
  rw [hcmd, cmd_ini_dollar, List.append_assoc, takeWhile_append_of_stop hname hstop,
    dropWhile_append_of_stop hname hstop, hskip]
  simp only [ini_value, ini_diag, hne, ne_eq, not_false_eq_true, if_true, heval, List.nil_append]

/-- C2, counterexample: the literal 2147483648 does not fit an `int`; after
`INI $A 2147483648` the variable `A` holds -2147483648, not the value of the
literal. -/
theorem cmd_ini_literal_overflow :
    stored_value (cmd_ini mcl_init " $A 2147483648".toList).1 "A".toList = -2147483648 ∧
    stored_value (cmd_ini mcl_init " $A 2147483648".toList).1 "A".toList ≠
      (decimal_value "2147483648".toList : Int) ∧
    (cmd_ini mcl_init " $A 2147483648".toList).2 =
      ["Variable $A initialized to -2147483648".toList] := by
  decide

/-- C2, amended: for every store, every name of at most 31
alphanumeric/underscore characters and every decimal literal whose value v is
below 2^31, `cmd_ini` on
`$name v` (the store not being full when the name is new) leaves a store in
which `find_variable` finds `name` at an index holding the value v, and prints
the confirmation; `var_count` grows by one when the name was absent, the new
variable being the last one, and is unchanged when the name was present, the
variable found before being the one updated; every other entry keeps its name,
value and position, and the program is untouched.  After `INI $A 1` and
`INI $A 2` the variable `A` holds 2 and the count is still 1. -/
theorem cmd_ini_sets_variable (env : Env) (sys : MCLSystem) (name digits ws1 ws2 : Text)
    (hname : ∀ c ∈ name, name_char c = true) (_hlen : name.length < MAX_VAR_NAME)
    (hne : digits ≠ [])
    (hdig : ∀ c ∈ digits, isdigit c = true) (hfit : decimal_value digits < 2147483648)
    (hws1 : ∀ c ∈ ws1, isspace c = true) (hws2 : ∀ c ∈ ws2, isspace c = true)
    (hsep : ws2 ≠ [])
    (hroom : find_variable sys name = none → sys.var_count < MAX_VARS) :
    (∃ i used,
      find_variable (cmd_ini sys (ws1 ++ '$' :: (name ++ ws2 ++ digits))).1 name = some i ∧
      (cmd_ini sys (ws1 ++ '$' :: (name ++ ws2 ++ digits))).1.variables[i]? =
        some ⟨name, decimal_value digits, used⟩ ∧
      var_value (cmd_ini sys (ws1 ++ '$' :: (name ++ ws2 ++ digits))).1 i = decimal_value digits ∧
      (find_variable sys name = none →
        i = sys.var_count ∧
        (cmd_ini sys (ws1 ++ '$' :: (name ++ ws2 ++ digits))).1.var_count = sys.var_count + 1) ∧
      (find_variable sys name ≠ none →
        find_variable sys name = some i ∧
        (cmd_ini sys (ws1 ++ '$' :: (name ++ ws2 ++ digits))).1.var_count = sys.var_count) ∧
      (∀ j, j ≠ i → j < sys.var_count →
        (cmd_ini sys (ws1 ++ '$' :: (name ++ ws2 ++ digits))).1.variables[j]? =
          sys.variables[j]?)) ∧
    (cmd_ini sys (ws1 ++ '$' :: (name ++ ws2 ++ digits))).2 =
      [ini_message name (decimal_value digits)] ∧
    (cmd_ini sys (ws1 ++ '$' :: (name ++ ws2 ++ digits))).1.program = sys.program ∧
    (cmd_ini sys (ws1 ++ '$' :: (name ++ ws2 ++ digits))).1.current_program =
      sys.current_program ∧
    (cmd_ini sys (ws1 ++ '$' :: (name ++ ws2 ++ digits))).1.program_loaded =
      sys.program_loaded ∧
    stored_value (process_command env (process_command env mcl_init "INI $A 1".toList).sys
      "INI $A 2".toList).sys "A".toList = 2 ∧
    (process_command env (process_command env mcl_init "INI $A 1".toList).sys
      "INI $A 2".toList).sys.var_count = 1 ∧
    (process_command env mcl_init "INI $A 1".toList).sys.var_count = 1 := by
  have hex1 : (process_command env mcl_init "INI $A 1".toList).sys =
      ⟨[⟨"A".toList, 1, 1⟩], [], [], false⟩ := rfl
  have hex2 : (process_command env ⟨[⟨"A".toList, 1, 1⟩], [], [], false⟩
      "INI $A 2".toList).sys = ⟨[⟨"A".toList, 2, 1⟩], [], [], false⟩ := rfl
  rw [hex1, hex2, cmd_ini_name_literal sys name digits ws1 ws2 hname hne hdig hfit hws1 hws2 hsep]
  cases hf : find_variable sys name with
  | some i =>
    obtain ⟨v, hget, hvname, _⟩ := find_variable_some hf
    rw [List.get?_eq_getElem?] at hget
    have hget' := set_at_get_eq sys.variables (decimal_value digits : Int) hget
    rw [hvname] at hget'
    refine ⟨⟨i, v.used, ?_, hget', ?_, ?_, ?_, ?_⟩, rfl, rfl, rfl, rfl, by decide, by decide,
      by decide⟩
    · simpa only [find_variable, set_value, find_from_set_at] using hf
    · simp only [var_value, set_value, List.get?_eq_getElem?, hget']
    · intro h; cases h
    · intro _
      exact ⟨rfl, by simp only [MCLSystem.var_count, set_value, set_at_length]⟩
    · intro j hj _
      exact set_at_get_ne sys.variables _ hj
  | none =>
    have hlt : ¬ sys.var_count ≥ MAX_VARS := Nat.not_le.mpr (hroom hf)
    rw [if_neg hlt]
    have hfind : find_variable (with_new_variable sys name (decimal_value digits)) name =
        some sys.var_count := by
      have := find_from_append_new name sys.variables ⟨name, decimal_value digits, 1⟩ 0 hf rfl
      simpa only [find_variable, with_new_variable, MCLSystem.var_count, Nat.zero_add] using this
    have hget : (with_new_variable sys name (decimal_value digits)).variables[sys.var_count]? =
        some ⟨name, decimal_value digits, 1⟩ := by
      simp [with_new_variable, MCLSystem.var_count]
    refine ⟨⟨sys.var_count, 1, hfind, hget, ?_, ?_, ?_, ?_⟩, rfl, rfl, rfl, rfl, by decide,
      by decide, by decide⟩
    · simp only [var_value, List.get?_eq_getElem?, hget]
    · intro _
      exact ⟨rfl, by simp [with_new_variable, MCLSystem.var_count]⟩
    · intro h; exact absurd rfl h
    · intro j _ hj
      simp only [MCLSystem.var_count] at hj
      simp [with_new_variable, List.getElem?_append_left hj]

theorem cmd_ini_sets_variable_witness :
    (cmd_ini mcl_init (" ".toList ++ '$' :: ("COUNT".toList ++ " ".toList ++ "42".toList))).2 =
      [ini_message "COUNT".toList (decimal_value "42".toList)] :=
  (cmd_ini_sets_variable ⟨fun _ => none, fun _ => false, none, [], none⟩ mcl_init
    "COUNT".toList "42".toList " ".toList " ".toList (by decide) (by decide) (by decide)
    (by decide) (by decide) (by decide) (by decide) (by decide) (by decide)).2.1

/-- C3: when the first non-blank character of the arguments is not `$` (in
particular when there is none), `cmd_ini` prints the error
`Variable name must start with $` and nothing else, and returns the state it
was given: variables, program, program name and loaded flag.  `INI COUNT 1`
does so in every state. -/
theorem cmd_ini_requires_sigil (env : Env) (sys : MCLSystem) (args : Text)
    (h : (skip_whitespace args).head? ≠ some '$') :
    cmd_ini sys args = (sys, ["Error: Variable name must start with $".toList]) ∧
    (process_command env sys "INI COUNT 1".toList).sys = sys ∧
    (process_command env sys "INI COUNT 1".toList).out =
      ["Error: Variable name must start with $".toList] := by
  refine ⟨?_, rfl, rfl⟩
  unfold cmd_ini
  split
  · rename_i p1 heq
    rw [heq] at h
    exact absurd rfl h
  · rfl

theorem cmd_ini_requires_sigil_witness :
    cmd_ini mcl_init " COUNT 1".toList =
      (mcl_init, ["Error: Variable name must start with $".toList]) :=
  (cmd_ini_requires_sigil ⟨fun _ => none, fun _ => false, none, [], none⟩ mcl_init
    " COUNT 1".toList (by decide)).1

/-- C4: on `$name`, with `name` made of at most 31 alphanumeric/underscore
characters and followed by `rest` that does not continue the name,
`evaluate_expression` returns the value of the variable `find_variable` finds,
without output, and returns 0 with the diagnostic `Variable $name not found`
when `find_variable` finds none; the remaining text is `rest` and the state is
the one given.  After `INI $X 7` the value of `$X` is 7; in the initial state
it is 0 with the diagnostic.  The bound on the length is what the array
`var_name` holds: `overlong_name`, a name of 40 alphanumeric characters, does
not fit it. -/
theorem evaluate_expression_reference (env : Env) (sys : MCLSystem) (name rest : Text)
    (hname : ∀ c ∈ name, name_char c = true) (_hlen : name.length < MAX_VAR_NAME)
    (hrest : ∀ c ∈ rest.head?, name_char c = false) :
    (∀ i, find_variable sys name = some i →
      (evaluate_expression sys ('$' :: (name ++ rest))).value = var_value sys i ∧
      (evaluate_expression sys ('$' :: (name ++ rest))).value = stored_value sys name ∧
      (evaluate_expression sys ('$' :: (name ++ rest))).out = []) ∧
    (find_variable sys name = none →
      (evaluate_expression sys ('$' :: (name ++ rest))).value = 0 ∧
      (evaluate_expression sys ('$' :: (name ++ rest))).out =
        ["Error: Variable $".toList ++ name ++ " not found".toList]) ∧
    (evaluate_expression sys ('$' :: (name ++ rest))).input = rest ∧
    (evaluate_expression sys ('$' :: (name ++ rest))).sys = sys ∧
    (evaluate_expression (process_command env mcl_init "INI $X 7".toList).sys
      "$X".toList).value = 7 ∧
    (evaluate_expression mcl_init "$X".toList).value = 0 ∧
    (evaluate_expression mcl_init "$X".toList).out = ["Error: Variable $X not found".toList] ∧
    (∀ c ∈ overlong_name, name_char c = true) ∧ overlong_name.length = 40 ∧
    name_fits overlong_name = false := by
  have hex : (process_command env mcl_init "INI $X 7".toList).sys =
      ⟨[⟨"X".toList, 7, 1⟩], [], [], false⟩ := rfl
  rw [hex, evaluate_expression_dollar, takeWhile_append_of_stop hname hrest,
    dropWhile_append_of_stop hname hrest]
  refine ⟨?_, ?_, rfl, rfl, by decide, by decide, by decide, by decide, by decide, by decide⟩
  · intro i hi
    obtain ⟨h1, h2⟩ := var_value_of_find hi
    exact ⟨h1.symm, rfl, by simp only [h2, if_true]⟩
  · intro hnone
    obtain ⟨h1, h2⟩ := stored_value_of_not_found hnone
    exact ⟨h1, by simp [h2, not_found_message]⟩

theorem evaluate_expression_reference_witness :
    (evaluate_expression mcl_init ('$' :: ("X".toList ++ ",5".toList))).input = ",5".toList :=
  (evaluate_expression_reference ⟨fun _ => none, fun _ => false, none, [], none⟩ mcl_init
    "X".toList ",5".toList (by decide) (by decide) (by decide)).2.2.1

/-! ## What the commands leave untouched -/

theorem cmd_sum_sys (sys : MCLSystem) (args : Text) : (cmd_sum sys args).1 = sys := by
  simp only [cmd_sum, evaluate_expression_sys]

theorem cmd_syb_sys (sys : MCLSystem) (args : Text) : (cmd_syb sys args).1 = sys := by
  simp only [cmd_syb, evaluate_expression_sys]

theorem cmd_list_sys (env : Env) (sys : MCLSystem) (args : Text) :
    (cmd_list env sys args).1 = sys := rfl

theorem cmd_save_sys (env : Env) (sys : MCLSystem) (args : Text) :
    (cmd_save env sys args).1 = sys := by
  simp only [cmd_save]
  split_ifs <;> rfl

theorem cmd_edit_sys (sys : MCLSystem) (args : Text) : (cmd_edit sys args).1 = sys := by
  unfold cmd_edit
  split
  · split_ifs
    · dsimp only
      split <;> exact evaluate_expression_sys _ _
    · rfl
  · rfl

theorem cmd_load_variables (env : Env) (sys : MCLSystem) (args : Text) :
    (cmd_load env sys args).1.variables = sys.variables := by
  simp only [cmd_load]
  split_ifs
  · rfl
  · split <;> simp only [evaluate_expression_sys]

theorem cmd_ini_requires_sigil_aux (sys : MCLSystem) (args : Text)
    (h : (skip_whitespace args).head? ≠ some '$') :
    cmd_ini sys args = (sys, ["Error: Variable name must start with $".toList]) := by
  unfold cmd_ini
  split
  · rename_i p1 heq
    rw [heq] at h
    exact absurd rfl h
  · rfl

/-- The three things `cmd_ini` can do to the state. -/
theorem cmd_ini_effect (sys : MCLSystem) (args : Text) :
    (cmd_ini sys args).1 = sys ∨
    ∃ p1, skip_whitespace args = '$' :: p1 ∧
      ((∃ i, find_variable sys (p1.takeWhile name_char) = some i ∧
          (cmd_ini sys args).1 =
            set_value sys i (ini_value sys (skip_whitespace (p1.dropWhile name_char)))) ∨
       (find_variable sys (p1.takeWhile name_char) = none ∧ sys.var_count < MAX_VARS ∧
          (cmd_ini sys args).1 =
            with_new_variable sys (p1.takeWhile name_char)
              (ini_value sys (skip_whitespace (p1.dropWhile name_char))))) := by
  cases hs : skip_whitespace args with
  | nil => left; simp only [cmd_ini, hs]
  | cons c p1 =>
    by_cases hc : c = '$'
    · subst hc
      have hcmd : cmd_ini sys args = cmd_ini sys ('$' :: p1) := by
        simp only [cmd_ini, hs, skip_whitespace_cons_of_not isspace_dollar]
      rw [hcmd, cmd_ini_dollar]
      cases hf : find_variable sys (p1.takeWhile name_char) with
      | some i => right; exact ⟨p1, rfl, Or.inl ⟨i, hf, rfl⟩⟩
      | none =>
        by_cases hfull : sys.var_count ≥ MAX_VARS
        · left; simp only [hfull, if_true]
        · right
          refine ⟨p1, rfl, Or.inr ⟨hf, Nat.not_le.mp hfull, ?_⟩⟩
          simp only [hfull, if_false]
    · left
      have := (cmd_ini_requires_sigil_aux sys args (by rw [hs]; simpa using hc))
      rw [this]

theorem cmd_ini_program (sys : MCLSystem) (args : Text) :
    (cmd_ini sys args).1.program = sys.program ∧
    (cmd_ini sys args).1.current_program = sys.current_program ∧
    (cmd_ini sys args).1.program_loaded = sys.program_loaded := by
  rcases cmd_ini_effect sys args with h | ⟨p1, _, ⟨i, _, h⟩ | ⟨_, _, h⟩⟩ <;> rw [h] <;>
    exact ⟨rfl, rfl, rfl⟩

/-! ## Invariants of the reachable states -/

theorem run_line_preserves (P : MCLSystem → Prop)
    (hini : ∀ sys args, P sys → P (cmd_ini sys args).1) (sys : MCLSystem) (l : ProgramLine)
    (h : P sys) : P (run_line sys l).1 := by
  simp only [run_line]
  split_ifs
  · exact h
  · exact hini _ _ h
  · exact h

theorem run_loop_preserves (P : MCLSystem → Prop)
    (hini : ∀ sys args, P sys → P (cmd_ini sys args).1) (fuel : Nat) (sys : MCLSystem) (i : Nat)
    (h : P sys) : P (run_loop fuel sys i).1 := by
  induction fuel generalizing sys i with
  | zero => exact h
  | succ n ih =>
    simp only [run_loop]
    split
    · exact h
    · exact ih _ _ (run_line_preserves P hini sys _ h)

theorem cmd_run_preserves (P : MCLSystem → Prop)
    (hini : ∀ sys args, P sys → P (cmd_ini sys args).1) (sys : MCLSystem) (args : Text)
    (h : P sys) : P (cmd_run sys args).1 := by
  simp only [cmd_run]
  split_ifs
  · exact h
  · exact run_loop_preserves P hini _ _ _ h

/-- The state a command leaves is the one it was given, or the one `cmd_ini`,
`cmd_load` or `cmd_run` leaves on the text that follows the verb. -/
theorem process_command_sys_cases (env : Env) (sys : MCLSystem) (input : Text) :
    (process_command env sys input).sys = sys ∨
    (starts_with (skip_whitespace input) "INI".toList = true ∧
      (process_command env sys input).sys =
        (cmd_ini sys ((skip_whitespace input).drop 3)).1) ∨
    (starts_with (skip_whitespace input) "LD".toList = true ∧
      (process_command env sys input).sys =
        (cmd_load env sys ((skip_whitespace input).drop 2)).1) ∨
    (process_command env sys input).sys = (cmd_run sys ((skip_whitespace input).drop 4)).1 := by
  unfold process_command
  dsimp only
  by_cases h1 : starts_with (skip_whitespace input) "SUM".toList = true
  · rw [if_pos h1]; exact Or.inl (cmd_sum_sys _ _)
  rw [if_neg h1]
  by_cases h2 : starts_with (skip_whitespace input) "SYB".toList = true
  · rw [if_pos h2]; exact Or.inl (cmd_syb_sys _ _)
  rw [if_neg h2]
  by_cases h3 : starts_with (skip_whitespace input) "INI".toList = true
  · rw [if_pos h3]; exact Or.inr (Or.inl ⟨h3, rfl⟩)
  rw [if_neg h3]
  by_cases h4 : starts_with (skip_whitespace input) "LIST".toList = true
  · rw [if_pos h4]; exact Or.inl rfl
  rw [if_neg h4]
  by_cases h5 : starts_with (skip_whitespace input) "LD".toList = true
  · rw [if_pos h5]; exact Or.inr (Or.inr (Or.inl ⟨h5, rfl⟩))
  rw [if_neg h5]
  by_cases h6 : starts_with (skip_whitespace input) "SAVE".toList = true
  · rw [if_pos h6]; exact Or.inl (cmd_save_sys _ _ _)
  rw [if_neg h6]
  by_cases h7 : starts_with (skip_whitespace input) "ED".toList = true
  · rw [if_pos h7]; exact Or.inl (cmd_edit_sys _ _)
  rw [if_neg h7]
  by_cases h8 : starts_with (skip_whitespace input) "$RUN".toList = true
  · rw [if_pos h8]; exact Or.inr (Or.inr (Or.inr rfl))
  rw [if_neg h8]
  left
  split_ifs <;> rfl

/-- A property that `cmd_ini` and `cmd_load` preserve is preserved by every
command. -/
theorem process_command_preserves (P : MCLSystem → Prop)
    (hini : ∀ sys args, P sys → P (cmd_ini sys args).1)
    (hload : ∀ env sys args, P sys → P (cmd_load env sys args).1)
    (env : Env) (sys : MCLSystem) (input : Text) (h : P sys) :
    P (process_command env sys input).sys := by
  rcases process_command_sys_cases env sys input with he | ⟨_, he⟩ | ⟨_, he⟩ | he <;> rw [he]
  · exact h
  · exact hini _ _ h
  · exact hload _ _ _ h
  · exact cmd_run_preserves P hini _ _ h

theorem reachable_preserves (P : MCLSystem → Prop) (h0 : P mcl_init)
    (hini : ∀ sys args, P sys → P (cmd_ini sys args).1)
    (hload : ∀ env sys args, P sys → P (cmd_load env sys args).1)
    (sys : MCLSystem) (h : Reachable sys) : P sys := by
  induction h with
  | init => exact h0
  | step env input _ ih => exact process_command_preserves P hini hload env _ input ih

theorem cmd_ini_names_distinct (sys : MCLSystem) (args : Text) (h : names_distinct sys) :
    names_distinct (cmd_ini sys args).1 := by
  rcases cmd_ini_effect sys args with he | ⟨p1, _, ⟨i, _, he⟩ | ⟨hnone, _, he⟩⟩
  · rw [he]; exact h
  · rw [he]
    simpa only [names_distinct, set_value, set_at_names] using h
  · rw [he]
    simp only [names_distinct, with_new_variable, List.map_append, List.map_cons, List.map_nil]
    rw [find_variable_none_iff] at hnone
    refine List.Nodup.append h (List.nodup_singleton _) ?_
    intro n hn hn'
    rw [List.mem_singleton] at hn'
    obtain ⟨v, hv, hvn⟩ := List.mem_map.mp hn
    exact hnone v hv (hvn.trans hn')

/-! ## Capacity -/

theorem cmd_ini_var_count_le (sys : MCLSystem) (args : Text) (h : sys.var_count ≤ MAX_VARS) :
    (cmd_ini sys args).1.var_count ≤ MAX_VARS := by
  rcases cmd_ini_effect sys args with he | ⟨p1, _, ⟨i, _, he⟩ | ⟨_, hroom, he⟩⟩
  · rw [he]; exact h
  · rw [he]
    simpa only [MCLSystem.var_count, set_value, set_at_length] using h
  · rw [he]
    simp only [MCLSystem.var_count, with_new_variable, List.length_append, List.length_singleton]
    exact hroom

theorem fgets_chunk_line (n : Nat) (l rest : Text) (hlen : l.length < n) (hnl : '\n' ∉ l) :
    fgets_chunk n (l ++ '\n' :: rest) = (l ++ ['\n'], rest) := by
  induction l generalizing n with
  | nil =>
    cases n with
    | zero => cases hlen
    | succ n => simp [fgets_chunk]
  | cons c cs ih =>
    cases n with
    | zero => cases hlen
    | succ n =>
      have hc : c ≠ '\n' := fun h => hnl (h ▸ List.mem_cons_self _ _)
      have hcs : '\n' ∉ cs := fun h => hnl (List.mem_cons_of_mem _ h)
      have hl : cs.length < n := by simpa using hlen
      simp [fgets_chunk, hc, ih n hl hcs]

theorem fgets_chunk_last (n : Nat) (l : Text) (hlen : l.length ≤ n) (hnl : '\n' ∉ l) :
    fgets_chunk n l = (l, []) := by
  induction l generalizing n with
  | nil => cases n <;> rfl
  | cons c cs ih =>
    cases n with
    | zero => cases hlen
    | succ n =>
      have hc : c ≠ '\n' := fun h => hnl (h ▸ List.mem_cons_self _ _)
      have hcs : '\n' ∉ cs := fun h => hnl (List.mem_cons_of_mem _ h)
      have hl : cs.length ≤ n := by simpa using hlen
      simp [fgets_chunk, hc, ih n hl hcs]

theorem c_str_of_no_nul (l : Text) (h : '\x00' ∉ l) : c_str l = l := by
  unfold c_str
  rw [List.takeWhile_eq_self_iff]
  intro c hc
  simp only [bne_iff_ne, ne_eq]
  intro hc0
  exact h (hc0 ▸ hc)

theorem takeWhile_not_newline (l rest : Text) (h : '\n' ∉ l) :
    (l ++ '\n' :: rest).takeWhile (fun c => c != '\n') = l := by
  apply takeWhile_append_of_stop
  · intro c hc
    simp only [bne_iff_ne, ne_eq]
    intro hc0
    exact h (hc0 ▸ hc)
  · intro c hc
    simp at hc
    subst hc
    rfl

theorem strip_newline_line (l : Text) (hnl : '\n' ∉ l) (hnul : '\x00' ∉ l) :
    strip_newline (l ++ ['\n']) = l := by
  have h0 : '\x00' ∉ l ++ ['\n'] := by
    intro h
    rcases List.mem_append.mp h with h | h
    · exact hnul h
    · simp at h
  unfold strip_newline
  rw [c_str_of_no_nul _ h0]
  exact takeWhile_not_newline l [] hnl

theorem strip_newline_last (l : Text) (hnl : '\n' ∉ l) (hnul : '\x00' ∉ l) :
    strip_newline l = l := by
  unfold strip_newline
  rw [c_str_of_no_nul _ hnul]
  have := @takeWhile_append_of_stop (fun c => c != '\n') l []
    (by
      intro c hc
      simp only [bne_iff_ne, ne_eq]
      intro hc0
      exact hnl (hc0 ▸ hc))
    (by simp)
  simpa using this

/-- `fgets` followed by the removal of the newline reads the first line of a
text file and leaves the file made of the other lines. -/
theorem fgets_file_of_lines (l : Text) (ls : List Text) (final_newline : Bool)
    (hl : text_line l) (hlast : final_newline = false → ls = [] → l ≠ []) :
    ∃ buf, fgets MAX_LINE_LENGTH (file_of_lines (l :: ls) final_newline) =
        some (buf, file_of_lines ls final_newline) ∧ strip_newline buf = l := by
  obtain ⟨hlen, hnl, hnul⟩ := hl
  by_cases hcase : ls = [] ∧ final_newline = false
  · obtain ⟨h1, h2⟩ := hcase
    subst h1 h2
    have hne : l ≠ [] := hlast rfl rfl
    refine ⟨l, ?_, strip_newline_last l hnl hnul⟩
    simp only [file_of_lines, fgets, hne, if_false, MAX_LINE_LENGTH]
    rw [fgets_chunk_last _ l (by simp only [Nat.add_one_sub_one]; omega) hnl]
  · have hfile : file_of_lines (l :: ls) final_newline =
        l ++ '\n' :: file_of_lines ls final_newline := by
      cases ls with
      | nil =>
        cases final_newline with
        | false => exact absurd ⟨rfl, rfl⟩ hcase
        | true => rfl
      | cons l2 ls2 => cases final_newline <;> rfl
    refine ⟨l ++ ['\n'], ?_, strip_newline_line l hnl hnul⟩
    rw [hfile]
    have hne : l ++ '\n' :: file_of_lines ls final_newline ≠ [] := by simp
    simp only [fgets, hne, if_false, MAX_LINE_LENGTH]
    rw [fgets_chunk_line _ l _ (by simp only [Nat.add_one_sub_one]; omega) hnl]

theorem fgets_nil (n : Nat) : fgets n [] = none := rfl

/-- The loading loop stores the lines of the file in order, numbered in steps
of 10, until the program holds `MAX_PROGRAMS` lines. -/
theorem load_loop_file_of_lines (ls : List Text) (final_newline : Bool) (fuel : Nat) (n : Int)
    (program : List ProgramLine) (hls : ∀ l ∈ ls, text_line l)
    (hlast : final_newline = false → ∀ l, ls.getLast? = some l → l ≠ [])
    (hfuel : MAX_PROGRAMS - program.length < fuel) :
    load_loop fuel (file_of_lines ls final_newline) n program =
      program ++ number_from n (ls.take (MAX_PROGRAMS - program.length)) := by
  induction ls generalizing fuel n program with
  | nil =>
    cases fuel with
    | zero => cases hfuel
    | succ fuel => simp [load_loop, file_of_lines, fgets_nil, number_from]
  | cons l ls ih =>
    cases fuel with
    | zero => cases hfuel
    | succ fuel =>
      have hl := hls l (List.mem_cons_self _ _)
      have hlast1 : final_newline = false → ls = [] → l ≠ [] := by
        intro h1 h2
        subst h2
        exact hlast h1 l rfl
      obtain ⟨buf, hget, hstrip⟩ := fgets_file_of_lines l ls final_newline hl hlast1
      simp only [load_loop, hget, hstrip]
      by_cases hroom : program.length < MAX_PROGRAMS
      · rw [if_pos hroom]
        have hlast2 : final_newline = false → ∀ x, ls.getLast? = some x → x ≠ [] := by
          intro h1 x hx
          apply hlast h1 x
          cases ls with
          | nil => cases hx
          | cons y ys => simpa [List.getLast?_cons_cons] using hx
        rw [ih fuel (n + 10) (program ++ [(⟨n, l⟩ : ProgramLine)])
          (fun x hx => hls x (List.mem_cons_of_mem _ hx)) hlast2
          (by simp only [List.length_append, List.length_singleton]; omega)]
        have hk : MAX_PROGRAMS - program.length =
            (MAX_PROGRAMS - (program ++ [(⟨n, l⟩ : ProgramLine)]).length) + 1 := by
          simp only [List.length_append, List.length_singleton]; omega
        rw [hk, List.take_succ_cons, number_from, List.append_assoc]
        rfl
      · rw [if_neg hroom]
        have hz : MAX_PROGRAMS - program.length = 0 := by omega
        rw [hz]
        simp [number_from]

theorem number_from_length (n : Int) (ls : List Text) : (number_from n ls).length = ls.length := by
  induction ls generalizing n with
  | nil => rfl
  | cons l ls ih => simp [number_from, ih]

theorem number_from_get (n : Int) (ls : List Text) (i : Nat) :
    (number_from n ls)[i]? = (ls[i]?).map (fun l => ⟨n + 10 * (i : Int), l⟩) := by
  induction ls generalizing n i with
  | nil => rfl
  | cons l ls ih =>
    cases i with
    | zero => simp [number_from]
    | succ i =>
      simp only [number_from, List.getElem?_cons_succ, ih]
      congr 1
      funext x
      congr 1
      push_cast
      ring

theorem number_from_lower (n : Int) (ls : List Text) :
    ∀ p ∈ number_from n ls, n ≤ p.line_number := by
  induction ls generalizing n with
  | nil => intro p hp; cases hp
  | cons l ls ih =>
    intro p hp
    simp only [number_from, List.mem_cons] at hp
    rcases hp with hp | hp
    · subst hp; exact le_refl _
    · have := ih (n + 10) p hp
      omega

theorem number_from_increasing (n : Int) (ls : List Text) :
    ((number_from n ls).map ProgramLine.line_number).Pairwise (fun a b => a < b) := by
  induction ls generalizing n with
  | nil => exact List.Pairwise.nil
  | cons l ls ih =>
    simp only [number_from, List.map_cons, List.pairwise_cons]
    refine ⟨?_, ih (n + 10)⟩
    intro b hb
    obtain ⟨p, hp, hpb⟩ := List.mem_map.mp hb
    have := number_from_lower (n + 10) ls p hp
    omega

/-- C7: whatever the prior state, when `cmd_load` is not given the `$$` form
and the file it opens consists of k lines of fewer than 1023 characters (the
last one with or without its newline), the program becomes the first
min(k, 100) lines of the file in order: `program_size` is min(k, 100), entry i
has `line_number` 10 + 10*i and the i-th line without its newline as content,
nothing is stored at index 100 or beyond, the line numbers are strictly
increasing, `program_loaded` is true, the file name is recorded and the
variables are those of the prior state. -/
theorem cmd_load_program (env : Env) (sys : MCLSystem) (args : Text) (lines : List Text)
    (final_newline : Bool)
    (hdollar : ((skip_whitespace args).takeWhile (fun c => c == '$')).length ≠ 2)
    (hlines : ∀ l ∈ lines, text_line l)
    (hlast : final_newline = false → ∀ l, lines.getLast? = some l → l ≠ [])
    (hopen : env.fopen_read
        (load_filename sys ((skip_whitespace args).dropWhile (fun c => c == '$'))) =
      some (file_of_lines lines final_newline)) :
    (cmd_load env sys args).1.program = number_from 10 (lines.take 100) ∧
    (cmd_load env sys args).1.program_size = min lines.length 100 ∧
    (∀ (i : Nat) (l : Text), i < 100 → lines[i]? = some l →
      (cmd_load env sys args).1.program[i]? = some ⟨10 + 10 * (i : Int), l⟩) ∧
    (∀ i : Nat, 100 ≤ i → (cmd_load env sys args).1.program[i]? = none) ∧
    ((cmd_load env sys args).1.program.map ProgramLine.line_number).Pairwise
      (fun a b => a < b) ∧
    (cmd_load env sys args).1.program_loaded = true ∧
    (cmd_load env sys args).1.current_program =
      load_filename sys ((skip_whitespace args).dropWhile (fun c => c == '$')) ∧
    (cmd_load env sys args).1.variables = sys.variables := by
  have hloop := load_loop_file_of_lines lines final_newline (MAX_PROGRAMS + 1) 10 [] hlines hlast
    (by simp only [List.length_nil]; omega)
  simp only [List.nil_append, List.length_nil, Nat.sub_zero, MAX_PROGRAMS] at hloop
  have hprog : (cmd_load env sys args).1.program = number_from 10 (lines.take 100) := by
    simp only [cmd_load, hdollar, if_false, hopen, MAX_PROGRAMS, hloop]
  have hrest : (cmd_load env sys args).1.program_loaded = true ∧
      (cmd_load env sys args).1.current_program =
        load_filename sys ((skip_whitespace args).dropWhile (fun c => c == '$')) := by
    simp only [cmd_load, hdollar, if_false, hopen, and_self]
  refine ⟨hprog, ?_, ?_, ?_, ?_, hrest.1, hrest.2, cmd_load_variables env sys args⟩
  · simp only [MCLSystem.program_size, hprog, number_from_length, List.length_take]
    exact Nat.min_comm _ _
  · intro i l hi hl
    rw [hprog, number_from_get, List.getElem?_take_of_lt hi, hl]
    rfl
  · intro i hi
    rw [hprog]
    apply List.getElem?_eq_none
    simp only [number_from_length, List.length_take]
    omega
  · rw [hprog]
    exact number_from_increasing 10 _

theorem cmd_load_program_witness :
    (cmd_load sample_env mcl_init " 0,$prog.mcl".toList).1.program =
      number_from 10 (["PRINT HELLO".toList, "INI $A 1".toList].take 100) :=
  (cmd_load_program sample_env mcl_init " 0,$prog.mcl".toList
    ["PRINT HELLO".toList, "INI $A 1".toList] true (by decide)
    (by
      intro l hl
      simp only [List.mem_cons, List.mem_singleton, List.not_mem_nil, or_false] at hl
      rcases hl with h | h <;> subst h <;> unfold text_line <;> decide)
    (by intro h; cases h) rfl).1

/-! ## $RUN -/

theorem run_line_program (sys : MCLSystem) (l : ProgramLine) :
    (run_line sys l).1.program = sys.program ∧
    (run_line sys l).1.current_program = sys.current_program ∧
    (run_line sys l).1.program_loaded = sys.program_loaded := by
  simp only [run_line]
  split_ifs
  · exact ⟨rfl, rfl, rfl⟩
  · exact cmd_ini_program _ _
  · exact ⟨rfl, rfl, rfl⟩

theorem run_lines_program (sys : MCLSystem) (ls : List ProgramLine) :
    (run_lines sys ls).1.program = sys.program ∧
    (run_lines sys ls).1.current_program = sys.current_program ∧
    (run_lines sys ls).1.program_loaded = sys.program_loaded := by
  induction ls generalizing sys with
  | nil => exact ⟨rfl, rfl, rfl⟩
  | cons l ls ih =>
    obtain ⟨h1, h2, h3⟩ := ih (run_line sys l).1
    obtain ⟨g1, g2, g3⟩ := run_line_program sys l
    exact ⟨h1.trans g1, h2.trans g2, h3.trans g3⟩

/-- With fuel for the lines that are left, the loop of `cmd_run` from index `i`
runs the lines `program[i]`, `program[i+1]`, ... of the state it starts in. -/
theorem run_loop_eq_run_lines (fuel : Nat) (sys : MCLSystem) (i : Nat)
    (hfuel : sys.program.length ≤ i + fuel) :
    run_loop fuel sys i = run_lines sys (sys.program.drop i) := by
  induction fuel generalizing sys i with
  | zero =>
    rw [List.drop_eq_nil_of_le (by omega)]
    rfl
  | succ n ih =>
    simp only [run_loop]
    cases hget : sys.program.get? i with
    | none =>
      rw [List.get?_eq_none] at hget
      rw [List.drop_eq_nil_of_le hget]
      rfl
    | some l =>
      have hdrop : sys.program.drop i = l :: sys.program.drop (i + 1) := by
        rw [List.get?_eq_getElem?] at hget
        obtain ⟨hlt, hl⟩ := List.getElem?_eq_some.mp hget
        rw [← hl]
        exact List.drop_eq_getElem_cons hlt
      have hp := (run_line_program sys l).1
      rw [hdrop]
      dsimp only
      rw [ih (run_line sys l).1 (i + 1) (by rw [hp]; omega), hp]
      rfl

theorem digit_char_toNat {d : Nat} (h : d < 10) : (digit_char d).toNat = 48 + d := by
  unfold digit_char
  interval_cases d <;> rfl

theorem isdigit_digit_char {d : Nat} (h : d < 10) : isdigit (digit_char d) = true := by
  rw [isdigit_iff, digit_char_toNat h]
  omega

theorem fmt_nat_aux_append (fuel n : Nat) (acc : List Char) :
    fmt_nat_aux fuel n acc = fmt_nat_aux fuel n [] ++ acc := by
  induction fuel generalizing n acc with
  | zero => rfl
  | succ fuel ih =>
    simp only [fmt_nat_aux]
    split_ifs
    · rfl
    · rw [ih (n / 10) (digit_char (n % 10) :: acc), ih (n / 10) [digit_char (n % 10)]]
      simp

theorem decimal_value_snoc (ds : Text) (c : Char) :
    decimal_value (ds ++ [c]) = decimal_value ds * 10 + (c.toNat - 48) := by
  simp [decimal_value, List.foldl_append]

theorem fmt_nat_aux_spec (fuel n : Nat) (h : n < fuel) :
    (∀ c ∈ fmt_nat_aux fuel n [], isdigit c = true) ∧ fmt_nat_aux fuel n [] ≠ [] ∧
      decimal_value (fmt_nat_aux fuel n []) = n := by
  induction fuel generalizing n with
  | zero => cases h
  | succ fuel ih =>
    have hmod : n % 10 < 10 := Nat.mod_lt _ (by decide)
    simp only [fmt_nat_aux]
    split_ifs with h0
    · refine ⟨?_, by simp, ?_⟩
      · intro c hc
        rw [List.mem_singleton] at hc
        subst hc
        exact isdigit_digit_char hmod
      · simp only [decimal_value, List.foldl_cons, List.foldl_nil, digit_char_toNat hmod]
        omega
    · have hlt : n / 10 < fuel := by omega
      obtain ⟨h1, h2, h3⟩ := ih (n / 10) hlt
      rw [fmt_nat_aux_append]
      refine ⟨?_, by simp, ?_⟩
      · intro c hc
        rcases List.mem_append.mp hc with hc | hc
        · exact h1 c hc
        · rw [List.mem_singleton] at hc
          subst hc
          exact isdigit_digit_char hmod
      · rw [decimal_value_snoc, h3, digit_char_toNat hmod]
        omega

/-- The decimal text of `n` is a non-empty string of digits whose value is `n`. -/
theorem fmt_nat_spec (n : Nat) :
    (∀ c ∈ fmt_nat n, isdigit c = true) ∧ fmt_nat n ≠ [] ∧ decimal_value (fmt_nat n) = n :=
  fmt_nat_aux_spec (n + 1) n (Nat.lt_succ_self n)

theorem fmt_d_natCast (n : Nat) : fmt_d (n : Int) = fmt_nat n := by
  simp [fmt_d]

theorem evaluate_expression_fmt_nat (sys : MCLSystem) (n : Nat) (hn : n < 2147483648) :
    evaluate_expression sys (fmt_nat n) = ⟨(n : Int), [], sys, []⟩ := by
  obtain ⟨h1, h2, h3⟩ := fmt_nat_spec n
  have := evaluate_expression_digits sys (fmt_nat n) [] h2 h1 (by simp) (by rw [h3]; exact hn)
  rw [List.append_nil, h3] at this
  exact this

/-! ## ED -/

theorem number_from_find (m : Int) (ls : List Text) (i : Nat) (l : Text) (h : ls[i]? = some l) :
    (number_from m ls).find? (fun p => p.line_number == m + 10 * (i : Int)) =
      some ⟨m + 10 * (i : Int), l⟩ := by
  induction ls generalizing m i with
  | nil => simp at h
  | cons x xs ih =>
    cases i with
    | zero =>
      simp at h
      subst h
      simp [number_from]
    | succ i =>
      simp only [List.getElem?_cons_succ] at h
      have hne : ¬ (m = m + 10 * ((i + 1 : Nat) : Int)) := by
        push_cast
        omega
      have hih := ih (m + 10) i h
      have heq : m + 10 + 10 * (i : Int) = m + 10 * ((i + 1 : Nat) : Int) := by
        push_cast
        ring
      rw [heq] at hih
      have hb : (m == m + 10 * ((i + 1 : Nat) : Int)) = false := by
        simpa using hne
      simp only [number_from, List.find?_cons, hb]
      exact hih

theorem number_from_mem (m : Int) (ls : List Text) (p : ProgramLine)
    (h : p ∈ number_from m ls) : ∃ i : Nat, i < ls.length ∧ p.line_number = m + 10 * (i : Int) := by
  induction ls generalizing m with
  | nil => cases h
  | cons x xs ih =>
    simp only [number_from, List.mem_cons] at h
    rcases h with h | h
    · subst h
      exact ⟨0, by simp, by simp⟩
    · obtain ⟨i, hi, hp⟩ := ih (m + 10) h
      refine ⟨i + 1, by simpa using hi, ?_⟩
      rw [hp]
      push_cast
      ring

theorem number_from_find_none (m x : Int) (ls : List Text)
    (h : ∀ i : Nat, i < ls.length → x ≠ m + 10 * (i : Int)) :
    (number_from m ls).find? (fun p => p.line_number == x) = none := by
  rw [List.find?_eq_none]
  intro p hp
  obtain ⟨i, hi, hpi⟩ := number_from_mem m ls p hp
  simp only [beq_iff_eq]
  intro hx
  exact h i hi (hx ▸ hpi)

/-- `cmd_edit` on `$NUM` followed by the decimal text of `n`, below 2^31:
the program is searched for the line number `n`. -/
theorem cmd_edit_num (sys : MCLSystem) (ws : Text) (n : Nat)
    (hws : ∀ c ∈ ws, isspace c = true) (hn : n < 2147483648) :
    cmd_edit sys (ws ++ "$NUM".toList ++ fmt_nat n) =
      match sys.program.find? (fun l => l.line_number == (n : Int)) with
      | some l => (sys, [fmt_d l.line_number ++ " ".toList ++ l.content])
      | none => (sys, ["Line ".toList ++ fmt_nat n ++ " not found".toList]) := by
  have hskip : skip_whitespace (ws ++ "$NUM".toList ++ fmt_nat n) =
      '$' :: ("NUM".toList ++ fmt_nat n) := by
    rw [List.append_assoc, skip_whitespace_append hws]
    rfl
  have hstart : starts_with ("NUM".toList ++ fmt_nat n) "NUM".toList = true := by
    simp [starts_with, List.isPrefixOf]
  have hdrop : ("NUM".toList ++ fmt_nat n).drop 3 = fmt_nat n := rfl
  simp only [cmd_edit, hskip, hstart, if_true, hdrop, evaluate_expression_fmt_nat sys n hn,
    List.nil_append, fmt_d_natCast]

/-- The program a successful load leaves. -/
theorem cmd_load_program_eq (env : Env) (sys : MCLSystem) (args : Text) (lines : List Text)
    (final_newline : Bool)
    (hdollar : ((skip_whitespace args).takeWhile (fun c => c == '$')).length ≠ 2)
    (hlines : ∀ l ∈ lines, text_line l)
    (hlast : final_newline = false → ∀ l, lines.getLast? = some l → l ≠ [])
    (hopen : env.fopen_read
        (load_filename sys ((skip_whitespace args).dropWhile (fun c => c == '$'))) =
      some (file_of_lines lines final_newline)) :
    (cmd_load env sys args).1.program = number_from 10 (lines.take 100) := by
  have hloop := load_loop_file_of_lines lines final_newline (MAX_PROGRAMS + 1) 10 [] hlines hlast
    (by simp only [List.length_nil]; omega)
  simp only [List.nil_append, List.length_nil, Nat.sub_zero, MAX_PROGRAMS] at hloop
  simp only [cmd_load, hdollar, if_false, hopen, MAX_PROGRAMS, hloop]

set_option maxRecDepth 100000 in
/-- C9, counterexample: after the load of a file of two lines, `ED` with the
line number 4294967316 = 2^32 + 20, which is not the number of a loaded line,
prints the second line instead of `Line 4294967316 not found`.  And after the
load of a file of one line of 1023 characters, which `fgets` reads in two
calls, two lines are loaded and `ED $NUM20` prints the second, empty, one
instead of `Line 20 not found`. -/
theorem cmd_edit_line_number_wraps :
    (cmd_load sample_env mcl_init " 0,$prog.mcl".toList).1.program_size = 2 ∧
    (∀ i : Nat, i < 2 → 4294967316 ≠ 10 * (i + 1)) ∧
    (cmd_edit (cmd_load sample_env mcl_init " 0,$prog.mcl".toList).1
      " $NUM4294967316".toList).2 = ["20 INI $A 1".toList] ∧
    long_line_env.fopen_read "prog.mcl".toList =
      some (file_of_lines [List.replicate 1023 'A'] true) ∧
    (cmd_load long_line_env mcl_init " 0,$prog.mcl".toList).1.program_size = 2 ∧
    (∀ i : Nat, i < 1 → 20 ≠ 10 * (i + 1)) ∧
    (cmd_edit (cmd_load long_line_env mcl_init " 0,$prog.mcl".toList).1
      " $NUM20".toList).2 = ["20 ".toList] := by
  decide

/-- C9, amended: after a successful load of a file of k <= 100 lines, each
shorter than 1023 characters and without NUL character, for every n below 2^31,
`cmd_edit` on `$NUM` followed by the decimal text of n prints `n content` of
the i-th loaded line when n = 10*(i+1) with i < k, and prints
`Line n not found` when n is no such number; the state is unchanged.
`ED $NUM20` prints the second line when there is one. -/
theorem cmd_edit_after_load (env : Env) (sys : MCLSystem) (args : Text) (lines : List Text)
    (final_newline : Bool)
    (hdollar : ((skip_whitespace args).takeWhile (fun c => c == '$')).length ≠ 2)
    (hlines : ∀ l ∈ lines, text_line l)
    (hlast : final_newline = false → ∀ l, lines.getLast? = some l → l ≠ [])
    (hopen : env.fopen_read
        (load_filename sys ((skip_whitespace args).dropWhile (fun c => c == '$'))) =
      some (file_of_lines lines final_newline))
    (hk : lines.length ≤ 100) (n : Nat) (hn : n < 2147483648) (ws : Text)
    (hws : ∀ c ∈ ws, isspace c = true) :
    (∀ (i : Nat) (l : Text), lines[i]? = some l → n = 10 * (i + 1) →
      (cmd_edit (cmd_load env sys args).1 (ws ++ "$NUM".toList ++ fmt_nat n)).2 =
        [fmt_nat n ++ " ".toList ++ l]) ∧
    ((∀ i : Nat, i < lines.length → n ≠ 10 * (i + 1)) →
      (cmd_edit (cmd_load env sys args).1 (ws ++ "$NUM".toList ++ fmt_nat n)).2 =
        ["Line ".toList ++ fmt_nat n ++ " not found".toList]) ∧
    (cmd_edit (cmd_load env sys args).1 (ws ++ "$NUM".toList ++ fmt_nat n)).1 =
      (cmd_load env sys args).1 ∧
    (∀ l : Text, lines[1]? = some l →
      (process_command env (cmd_load env sys args).1 "ED $NUM20".toList).out =
        ["20 ".toList ++ l]) := by
  have hprog : (cmd_load env sys args).1.program = number_from 10 lines := by
    rw [cmd_load_program_eq env sys args lines final_newline hdollar hlines hlast hopen,
      List.take_of_length_le hk]
  have hfound : ∀ (m : Nat) (ws' : Text), (∀ c ∈ ws', isspace c = true) → m < 2147483648 →
      ∀ (i : Nat) (l : Text), lines[i]? = some l → m = 10 * (i + 1) →
      (cmd_edit (cmd_load env sys args).1 (ws' ++ "$NUM".toList ++ fmt_nat m)).2 =
        [fmt_nat m ++ " ".toList ++ l] := by
    intro m ws' hws' hm i l hl hmi
    have hcast : (m : Int) = 10 + 10 * (i : Int) := by omega
    rw [cmd_edit_num _ ws' m hws' hm, hprog, hcast, number_from_find 10 lines i l hl]
    simp only [← hcast, fmt_d_natCast]
  refine ⟨hfound n ws hws hn, ?_, ?_, ?_⟩
  · intro hno
    have hnone := number_from_find_none 10 (n : Int) lines (by
      intro i hi hx
      exact hno i hi (by omega))
    rw [cmd_edit_num _ ws n hws hn, hprog, hnone]
  · exact cmd_edit_sys _ _
  · intro l hl
    have h20 := hfound 20 " ".toList (by decide) (by decide) 1 l hl rfl
    have hdisp : (process_command env (cmd_load env sys args).1 "ED $NUM20".toList).out =
        (cmd_edit (cmd_load env sys args).1 (" ".toList ++ "$NUM".toList ++ fmt_nat 20)).2 := rfl
    rw [hdisp, h20]
    rfl

theorem cmd_edit_after_load_witness :
    (cmd_edit (cmd_load sample_env mcl_init " 0,$prog.mcl".toList).1
      (" ".toList ++ "$NUM".toList ++ fmt_nat 30)).2 =
        ["Line ".toList ++ fmt_nat 30 ++ " not found".toList] :=
  (cmd_edit_after_load sample_env mcl_init " 0,$prog.mcl".toList
    ["PRINT HELLO".toList, "INI $A 1".toList] true (by decide)
    (by
      intro l hl
      simp only [List.mem_cons, List.mem_singleton, List.not_mem_nil, or_false] at hl
      rcases hl with h | h <;> subst h <;> unfold text_line <;> decide)
    (by intro h; cases h) rfl (by decide) 30 (by decide) " ".toList (by decide)).2.1
    (by decide)

/-! ## Literals below 2^31 -/

theorem word_char_of_isspace {c : Char} (h : isspace c = true) : word_char c = false := by
  have hn : name_char c = false := by
    cases hn : name_char c with
    | false => rfl
    | true => rw [not_isspace_of_name_char hn] at h; cases h
  have hd : (c == '$') = false := by
    cases hd : (c == '$') with
    | false => rfl
    | true =>
      have hc : c = '$' := by simpa using hd
      subst hc
      exact absurd h (by decide)
  simp only [word_char, hn, hd, Bool.or_self]

theorem lits_from_cons_iff (w : Bool) (c : Char) (cs : Text) :
    lits_from w (c :: cs) = true ↔
      (w = true ∨ isdigit c = false ∨
          decimal_value ((c :: cs).takeWhile isdigit) < 2147483648) ∧
        lits_from (word_char c) cs = true := by
  simp only [lits_from, Bool.and_eq_true, Bool.or_eq_true, Bool.not_eq_true', decide_eq_true_eq,
    or_assoc]

theorem lits_from_head {c : Char} {cs : Text} (h : lits_from false (c :: cs) = true)
    (hd : isdigit c = true) : decimal_value ((c :: cs).takeWhile isdigit) < 2147483648 := by
  rcases ((lits_from_cons_iff _ _ _).mp h).1 with h1 | h1 | h1
  · cases h1
  · rw [hd] at h1; cases h1
  · exact h1

theorem lits_part_of_ok {t : Text} (h : lits_ok t = true) : lits_part t := ⟨false, h⟩

theorem lits_part_append_right (a b : Text) (h : lits_part (a ++ b)) : lits_part b := by
  induction a with
  | nil => exact h
  | cons c cs ih =>
    obtain ⟨w, hw⟩ := h
    exact ih ⟨_, ((lits_from_cons_iff _ _ _).mp hw).2⟩

theorem takeWhile_append_exists (p : Char → Bool) (u b : Text) :
    ∃ y, (u ++ b).takeWhile p = u.takeWhile p ++ y := by
  induction u with
  | nil => exact ⟨b.takeWhile p, rfl⟩
  | cons c cs ih =>
    obtain ⟨y, hy⟩ := ih
    cases hc : p c with
    | true => exact ⟨y, by simp [List.takeWhile_cons, hc, hy]⟩
    | false => exact ⟨[], by simp [List.takeWhile_cons, hc]⟩

theorem decimal_value_takeWhile_le (u b : Text) :
    decimal_value (u.takeWhile isdigit) ≤ decimal_value ((u ++ b).takeWhile isdigit) := by
  obtain ⟨y, hy⟩ := takeWhile_append_exists isdigit u b
  rw [hy, decimal_value_eq, decimal_value_eq, decimal_from_append]
  exact le_decimal_from _ _

theorem lits_from_append_left {w : Bool} {a b : Text} (h : lits_from w (a ++ b) = true) :
    lits_from w a = true := by
  induction a generalizing w with
  | nil => rfl
  | cons c cs ih =>
    rw [List.cons_append] at h
    obtain ⟨h1, h2⟩ := (lits_from_cons_iff _ _ _).mp h
    refine (lits_from_cons_iff _ _ _).mpr ⟨?_, ih h2⟩
    rcases h1 with h1 | h1 | h1
    · exact Or.inl h1
    · exact Or.inr (Or.inl h1)
    · exact Or.inr (Or.inr (lt_of_le_of_lt (decimal_value_takeWhile_le (c :: cs) b) h1))

theorem lits_part_append_left (a b : Text) (h : lits_part (a ++ b)) : lits_part a := by
  obtain ⟨w, hw⟩ := h
  exact ⟨w, lits_from_append_left hw⟩

theorem skip_whitespace_cons_of_space {c : Char} {cs : Text} (h : isspace c = true) :
    skip_whitespace (c :: cs) = skip_whitespace cs := by
  simp only [skip_whitespace, List.dropWhile_cons, h, if_true]

theorem lits_from_false_skip_whitespace {t : Text} (h : lits_from false t = true) :
    lits_from false (skip_whitespace t) = true := by
  induction t with
  | nil => exact h
  | cons c cs ih =>
    cases hc : isspace c with
    | true =>
      have h2 := ((lits_from_cons_iff _ _ _).mp h).2
      rw [word_char_of_isspace hc] at h2
      rw [skip_whitespace_cons_of_space hc]
      exact ih h2
    | false =>
      rw [skip_whitespace_cons_of_not hc]
      exact h

/-- After a blank, the text that follows the blanks starts outside a word. -/
theorem lits_from_skip_space {w : Bool} {c : Char} {cs : Text} (hc : isspace c = true)
    (h : lits_from w (c :: cs) = true) : lits_from false (skip_whitespace (c :: cs)) = true := by
  have h2 := ((lits_from_cons_iff _ _ _).mp h).2
  rw [word_char_of_isspace hc] at h2
  rw [skip_whitespace_cons_of_space hc]
  exact lits_from_false_skip_whitespace h2

theorem dropWhile_head_not (p : Char → Bool) (t : Text) :
    ∀ c ∈ (t.dropWhile p).head?, p c = false := by
  induction t with
  | nil => intro c hc; cases hc
  | cons x xs ih =>
    cases hx : p x with
    | true => simpa [List.dropWhile_cons, hx] using ih
    | false =>
      intro c hc
      simp [List.dropWhile_cons, hx] at hc
      subst hc
      exact hx

/-- The digits `cmd_ini` reads as the value follow a blank: they are a numeric
literal of the line. -/
theorem lits_part_value_leading (p1 : Text) (h : lits_part (p1.dropWhile name_char)) :
    ∀ c cs, skip_whitespace (skip_whitespace (p1.dropWhile name_char)) = c :: cs →
      isdigit c = true → decimal_value ((c :: cs).takeWhile isdigit) < 2147483648 := by
  intro c cs hs hd
  rw [skip_whitespace_idem] at hs
  have hstop := dropWhile_head_not name_char p1
  cases hr : p1.dropWhile name_char with
  | nil => rw [hr] at hs; cases hs
  | cons x xs =>
    rw [hr] at hs hstop h
    have hx : name_char x = false := hstop x rfl
    cases hsp : isspace x with
    | true =>
      obtain ⟨w, hw⟩ := h
      have h2 := lits_from_skip_space hsp hw
      rw [hs] at h2
      exact lits_from_head h2 hd
    | false =>
      rw [skip_whitespace_cons_of_not hsp] at hs
      injection hs with h1 h2
      subst h1
      rw [name_char_of_isdigit hd] at hx
      cases hx

/-- On a text whose leading run of digits has a value below 2^31 the digit loop
returns that value. -/
theorem eval_digits_takeWhile (t : Text)
    (h : decimal_value (t.takeWhile isdigit) < 2147483648) :
    (eval_digits 0 t).1 = (decimal_value (t.takeWhile isdigit) : Int) := by
  have key := eval_digits_append 0 (t.takeWhile isdigit) (t.dropWhile isdigit)
    (fun c hc => (List.mem_takeWhile_imp hc))
    (dropWhile_head_not isdigit t) (by simpa [decimal_value_eq] using h)
  rw [List.takeWhile_append_dropWhile] at key
  simp only [Nat.cast_zero] at key
  rw [key]
  rfl

theorem var_value_range (sys : MCLSystem) (i : Nat)
    (hv : ∀ v ∈ sys.variables, var_ok v) : 0 ≤ var_value sys i ∧ var_value sys i < 2147483648 := by
  unfold var_value
  cases hget : sys.variables.get? i with
  | none => exact ⟨le_refl _, by decide⟩
  | some v =>
    have hmem : v ∈ sys.variables := List.get?_mem hget
    exact ⟨(hv v hmem).2.1, (hv v hmem).2.2.1⟩

/-- With the stored values and the literal at the start of the text below 2^31,
the value of an expression is in 0 .. 2^31 - 1. -/
theorem evaluate_expression_range (sys : MCLSystem) (input : Text)
    (hv : ∀ v ∈ sys.variables, var_ok v)
    (hl : ∀ c cs, skip_whitespace input = c :: cs → isdigit c = true →
      decimal_value ((c :: cs).takeWhile isdigit) < 2147483648) :
    0 ≤ (evaluate_expression sys input).value ∧
      (evaluate_expression sys input).value < 2147483648 := by
  unfold evaluate_expression
  split
  · exact ⟨le_refl _, (by decide : (0 : Int) < 2147483648)⟩
  · rename_i c cs heq
    split
    · dsimp only
      split
      · exact var_value_range sys _ hv
      · exact ⟨le_refl _, (by decide : (0 : Int) < 2147483648)⟩
    · split
      · rename_i hdig
        dsimp only
        have hlt := hl c cs heq hdig
        rw [eval_digits_takeWhile _ hlt]
        exact ⟨Int.natCast_nonneg _, by exact_mod_cast hlt⟩
      · exact ⟨le_refl _, (by decide : (0 : Int) < 2147483648)⟩

theorem ini_value_range (sys : MCLSystem) (p2 : Text)
    (hv : ∀ v ∈ sys.variables, var_ok v)
    (hl : ∀ c cs, skip_whitespace p2 = c :: cs → isdigit c = true →
      decimal_value ((c :: cs).takeWhile isdigit) < 2147483648) :
    0 ≤ ini_value sys p2 ∧ ini_value sys p2 < 2147483648 := by
  unfold ini_value
  split_ifs
  · exact evaluate_expression_range sys p2 hv hl
  · exact ⟨le_refl _, by decide⟩

theorem set_at_mem {vs : List Variable} {i : Nat} {x : Int} {v : Variable}
    (h : v ∈ set_at vs i x) : v ∈ vs ∨ ∃ w ∈ vs, v = ⟨w.name, x, w.used⟩ := by
  induction vs generalizing i with
  | nil => cases h
  | cons a as ih =>
    cases i with
    | zero =>
      simp only [set_at, List.mem_cons] at h
      rcases h with h | h
      · exact Or.inr ⟨a, List.mem_cons_self _ _, h⟩
      · exact Or.inl (List.mem_cons_of_mem _ h)
    | succ i =>
      simp only [set_at, List.mem_cons] at h
      rcases h with h | h
      · exact Or.inl (h ▸ List.mem_cons_self _ _)
      · rcases ih h with h' | ⟨w, hw, h'⟩
        · exact Or.inl (List.mem_cons_of_mem _ h')
        · exact Or.inr ⟨w, List.mem_cons_of_mem _ hw, h'⟩

theorem ini_literal_dollar {args p1 : Text} (hs : skip_whitespace args = '$' :: p1) :
    ini_literal args = (skip_whitespace (p1.dropWhile name_char)).takeWhile isdigit := by
  simp only [ini_literal, hs]

/-- The literal `cmd_ini` assigns, in a part of a text whose numeric literals
are below 2^31, is below 2^31. -/
theorem ini_literal_of_part (args : Text) (h : lits_part args) :
    decimal_value (ini_literal args) < 2147483648 := by
  cases hs : skip_whitespace args with
  | nil => simp [ini_literal, hs, decimal_value]
  | cons x p1 =>
    by_cases hx : x = '$'
    · subst hx
      rw [ini_literal_dollar hs]
      have h1 : lits_part (skip_whitespace args) := by
        apply lits_part_append_right (args.takeWhile isspace)
        rw [skip_whitespace, List.takeWhile_append_dropWhile]
        exact h
      rw [hs] at h1
      have h2 : lits_part p1 := lits_part_append_right ['$'] p1 h1
      have h3 : lits_part (p1.dropWhile name_char) := by
        apply lits_part_append_right (p1.takeWhile name_char)
        rw [List.takeWhile_append_dropWhile]
        exact h2
      have hlead := lits_part_value_leading p1 h3
      rw [skip_whitespace_idem] at hlead
      cases hp : skip_whitespace (p1.dropWhile name_char) with
      | nil => simp [decimal_value]
      | cons c cs =>
        cases hd : isdigit c with
        | true => exact hlead c cs hp hd
        | false => simp [List.takeWhile_cons, hd, decimal_value]
    · have hlit : ini_literal args = [] := by
        unfold ini_literal
        rw [hs]
        split
        · rename_i p heq
          injection heq with h1 _
          exact absurd h1 hx
        · rfl
      rw [hlit]
      simp [decimal_value]

theorem ini_literal_ok_of_part (line : Text) (h : lits_part line) :
    ini_literal_ok line = true := by
  unfold ini_literal_ok
  cases hst : starts_with (skip_whitespace line) "INI".toList with
  | false => rfl
  | true =>
    have h1 : lits_part ((skip_whitespace line).drop 3) := by
      apply lits_part_append_right ((skip_whitespace line).take 3)
      rw [List.take_append_drop]
      apply lits_part_append_right (line.takeWhile isspace)
      rw [skip_whitespace, List.takeWhile_append_dropWhile]
      exact h
    simp only [Bool.not_true, Bool.false_or, decide_eq_true_eq]
    exact ini_literal_of_part _ h1

theorem cmd_ini_store_ok (sys : MCLSystem) (args : Text) (h : store_ok sys)
    (hl : decimal_value (ini_literal args) < 2147483648) : store_ok (cmd_ini sys args).1 := by
  obtain ⟨hd, hv, hc⟩ := h
  have hd' := cmd_ini_names_distinct sys args hd
  have hc' := cmd_ini_var_count_le sys args hc
  refine ⟨hd', ?_, hc'⟩
  have hrange : ∀ p1, skip_whitespace args = '$' :: p1 →
      0 ≤ ini_value sys (skip_whitespace (p1.dropWhile name_char)) ∧
        ini_value sys (skip_whitespace (p1.dropWhile name_char)) < 2147483648 := by
    intro p1 hs
    apply ini_value_range sys _ hv
    intro c cs hcs _
    rw [skip_whitespace_idem] at hcs
    rw [ini_literal_dollar hs, hcs] at hl
    exact hl
  rcases cmd_ini_effect sys args with he | ⟨p1, hs, ⟨i, _, he⟩ | ⟨_, _, he⟩⟩
  · rw [he]; exact hv
  · have hval := hrange p1 hs
    rw [he]
    intro v hvm
    rcases set_at_mem hvm with h1 | ⟨w, hw, h1⟩
    · exact hv v h1
    · subst h1
      exact ⟨(hv w hw).1, hval.1, hval.2, (hv w hw).2.2.2⟩
  · have hval := hrange p1 hs
    rw [he]
    intro v hvm
    simp only [with_new_variable, List.mem_append, List.mem_singleton] at hvm
    rcases hvm with h1 | h1
    · exact hv v h1
    · subst h1
      exact ⟨fun c hc => List.mem_takeWhile_imp hc, hval.1, hval.2, rfl⟩

theorem ini_literal_ok_ini {line : Text} (h : ini_literal_ok line = true)
    (hst : starts_with (skip_whitespace line) "INI".toList = true) :
    decimal_value (ini_literal ((skip_whitespace line).drop 3)) < 2147483648 := by
  simpa only [ini_literal_ok, hst, Bool.not_true, Bool.false_or, decide_eq_true_eq] using h

theorem run_lines_store_ok (sys : MCLSystem) (ls : List ProgramLine) (h : store_ok sys)
    (hls : ∀ l ∈ ls, ini_literal_ok l.content = true) : store_ok (run_lines sys ls).1 := by
  induction ls generalizing sys with
  | nil => exact h
  | cons l ls ih =>
    refine ih _ ?_ (fun x hx => hls x (List.mem_cons_of_mem _ hx))
    simp only [run_line]
    split_ifs with hp hi
    · exact h
    · exact cmd_ini_store_ok sys _ h (ini_literal_ok_ini (hls l (List.mem_cons_self _ _)) hi)
    · exact h

/-! ## Invariants that follow the lines -/

theorem fgets_chunk_append (n : Nat) (s : List Char) :
    (fgets_chunk n s).1 ++ (fgets_chunk n s).2 = s := by
  induction s generalizing n with
  | nil => cases n <;> rfl
  | cons c cs ih =>
    cases n with
    | zero => rfl
    | succ n =>
      by_cases hc : c = '\n'
      · simp [fgets_chunk, hc]
      · simp [fgets_chunk, hc, ih n]

theorem part_takeWhile (Q : Text → Prop) (hpre : ∀ a b, Q (a ++ b) → Q a) (p : Char → Bool)
    {t : Text} (h : Q t) : Q (t.takeWhile p) := by
  apply hpre _ (t.dropWhile p)
  rw [List.takeWhile_append_dropWhile]
  exact h

theorem part_dropWhile (Q : Text → Prop) (hsuf : ∀ a b, Q (a ++ b) → Q b) (p : Char → Bool)
    {t : Text} (h : Q t) : Q (t.dropWhile p) := by
  apply hsuf (t.takeWhile p)
  rw [List.takeWhile_append_dropWhile]
  exact h

theorem part_drop (Q : Text → Prop) (hsuf : ∀ a b, Q (a ++ b) → Q b) (k : Nat)
    {t : Text} (h : Q t) : Q (t.drop k) := by
  apply hsuf (t.take k)
  rw [List.take_append_drop]
  exact h

/-- The lines `load_loop` stores are parts of the file: a property of texts
that passes to prefixes and suffixes passes from the file to every line. -/
theorem load_loop_parts (Q : Text → Prop) (hpre : ∀ a b, Q (a ++ b) → Q a)
    (hsuf : ∀ a b, Q (a ++ b) → Q b) (fuel : Nat) (file : List Char) (n : Int)
    (program : List ProgramLine) (hfile : Q file) (hprog : ∀ l ∈ program, Q l.content) :
    ∀ l ∈ load_loop fuel file n program, Q l.content := by
  induction fuel generalizing file n program with
  | zero => exact hprog
  | succ fuel ih =>
    simp only [load_loop]
    by_cases hnil : file = []
    · simp only [fgets, hnil, if_true]
      exact hprog
    · simp only [fgets, hnil, if_false]
      split_ifs
      · have happ := fgets_chunk_append (MAX_LINE_LENGTH - 1) file
        rw [← happ] at hfile
        apply ih
        · exact hsuf _ _ hfile
        · intro l hl
          rcases List.mem_append.mp hl with h | h
          · exact hprog l h
          · rw [List.mem_singleton] at h
            subst h
            exact part_takeWhile Q hpre _ (part_takeWhile Q hpre _ (hpre _ _ hfile))
      · exact hprog

/-- The two things `cmd_load` can do to the state. -/
theorem cmd_load_cases (env : Env) (sys : MCLSystem) (args : Text) :
    (cmd_load env sys args).1 = sys ∨
    ∃ file, ((skip_whitespace args).takeWhile (fun c => c == '$')).length ≠ 2 ∧
      env.fopen_read (load_filename sys ((skip_whitespace args).dropWhile (fun c => c == '$'))) =
        some file ∧
      (cmd_load env sys args).1 =
        ⟨sys.variables, load_loop (MAX_PROGRAMS + 1) file 10 [],
          load_filename sys ((skip_whitespace args).dropWhile (fun c => c == '$')), true⟩ := by
  simp only [cmd_load]
  split_ifs with hdollar
  · exact Or.inl rfl
  · split
    · rename_i file hfile
      exact Or.inr ⟨file, hdollar, hfile, by simp only [evaluate_expression_sys]⟩
    · exact Or.inl (evaluate_expression_sys _ _)

theorem run_lines_parts (Q : Text → Prop) (P : MCLSystem → Prop)
    (hsuf : ∀ a b, Q (a ++ b) → Q b)
    (hini : ∀ sys args, P sys → Q args → P (cmd_ini sys args).1)
    (sys : MCLSystem) (ls : List ProgramLine) (h : P sys) (hls : ∀ l ∈ ls, Q l.content) :
    P (run_lines sys ls).1 := by
  induction ls generalizing sys with
  | nil => exact h
  | cons l ls ih =>
    refine ih _ ?_ (fun x hx => hls x (List.mem_cons_of_mem _ hx))
    simp only [run_line]
    split_ifs
    · exact h
    · exact hini sys _ h (part_drop Q hsuf 3
        (part_dropWhile Q hsuf isspace (hls l (List.mem_cons_self _ _))))
    · exact h

/-- A property of the store that `cmd_ini` preserves on lines with the property
`Q`, together with `Q` for the loaded lines, is preserved by every command
given on a line with the property `Q` that loads a file with the property `Q`. -/
theorem process_command_parts (Q : Text → Prop) (P : MCLSystem → Prop)
    (hpre : ∀ a b, Q (a ++ b) → Q a) (hsuf : ∀ a b, Q (a ++ b) → Q b)
    (hini : ∀ sys args, P sys → Q args → P (cmd_ini sys args).1)
    (hstore : ∀ s t : MCLSystem, s.variables = t.variables → P s → P t)
    (env : Env) (sys : MCLSystem) (input : Text)
    (h : P sys ∧ ∀ l ∈ sys.program, Q l.content) (hl : Q input)
    (henv : ∀ file, ld_file env sys input = some file → Q file) :
    P (process_command env sys input).sys ∧
      ∀ l ∈ (process_command env sys input).sys.program, Q l.content := by
  rcases process_command_sys_cases env sys input with he | ⟨_, he⟩ | ⟨hld, he⟩ | he <;> rw [he]
  · exact h
  · refine ⟨hini sys _ h.1 (part_drop Q hsuf 3 (part_dropWhile Q hsuf isspace hl)), ?_⟩
    rw [(cmd_ini_program sys _).1]
    exact h.2
  · rcases cmd_load_cases env sys ((skip_whitespace input).drop 2) with hc | ⟨file, hdollar, hopen, hc⟩
    · rw [hc]; exact h
    · rw [hc]
      refine ⟨hstore sys _ rfl h.1, ?_⟩
      apply load_loop_parts Q hpre hsuf _ file 10 []
      · apply henv file
        simp only [ld_file, hld, hdollar, ne_eq, not_false_eq_true, and_self, if_true]
        exact hopen
      · intro l hl'; cases hl'
  · have hloop := run_loop_eq_run_lines sys.program_size sys 0
      (by simp only [MCLSystem.program_size]; omega)
    rw [List.drop_zero] at hloop
    simp only [cmd_run]
    split_ifs
    · exact h
    · rw [hloop]
      refine ⟨run_lines_parts Q P hsuf hini sys sys.program h.1 h.2, ?_⟩
      dsimp only
      rw [(run_lines_program sys sys.program).1]
      exact h.2

theorem store_ok_of_variables {s t : MCLSystem} (hst : s.variables = t.variables)
    (hs : store_ok s) : store_ok t := by
  simpa only [store_ok, names_distinct, MCLSystem.var_count, ← hst] using hs

theorem process_command_lit_inv (env : Env) (sys : MCLSystem) (input : Text) (h : lit_inv sys)
    (hl : ini_literal_ok input = true)
    (henv : ∀ file, ld_file env sys input = some file → file_literals_ok file = true) :
    lit_inv (process_command env sys input).sys := by
  rcases process_command_sys_cases env sys input with he | ⟨hini, he⟩ | ⟨hld, he⟩ | he <;> rw [he]
  · exact h
  · refine ⟨cmd_ini_store_ok sys _ h.1 (ini_literal_ok_ini hl hini), ?_⟩
    rw [(cmd_ini_program sys _).1]
    exact h.2
  · rcases cmd_load_cases env sys ((skip_whitespace input).drop 2) with
      hc | ⟨file, hdollar, hopen, hc⟩
    · rw [hc]; exact h
    · rw [hc]
      refine ⟨store_ok_of_variables rfl h.1, ?_⟩
      have hfile : file_literals_ok file = true := by
        apply henv file
        simp only [ld_file, hld, hdollar, ne_eq, not_false_eq_true, and_self, if_true]
        exact hopen
      intro l hlmem
      exact List.all_eq_true.mp hfile l hlmem
  · have hloop := run_loop_eq_run_lines sys.program_size sys 0
      (by simp only [MCLSystem.program_size]; omega)
    rw [List.drop_zero] at hloop
    simp only [cmd_run]
    split_ifs
    · exact h
    · rw [hloop]
      refine ⟨run_lines_store_ok sys sys.program h.1 h.2, ?_⟩
      dsimp only
      rw [(run_lines_program sys sys.program).1]
      exact h.2

theorem reachable_lit_inv (sys : MCLSystem) (h : ReachableLit sys) : lit_inv sys := by
  induction h with
  | init =>
    refine ⟨⟨by simp [names_distinct, mcl_init], ?_, by decide⟩, ?_⟩
    · intro v hv; cases hv
    · intro l hl; cases hl
  | step env input _ hl henv ih => exact process_command_lit_inv env _ input ih hl henv

/-- A file whose numeric literals are below 2^31 gives a program whose `INI`
lines assign literals below 2^31. -/
theorem file_literals_ok_of_lits_ok (file : List Char) (h : lits_ok file = true) :
    file_literals_ok file = true := by
  unfold file_literals_ok
  rw [List.all_eq_true]
  intro l hl
  exact ini_literal_ok_of_part _
    (load_loop_parts lits_part lits_part_append_left lits_part_append_right _ file 10 []
      (lits_part_of_ok h) (fun x hx => by cases hx) l hl)

/-! ## Names of at most 31 characters -/

theorem names_fit_cons_iff (c : Char) (cs : Text) :
    names_fit (c :: cs) = true ↔
      (c = '$' → (cs.takeWhile name_char).length < MAX_VAR_NAME) ∧ names_fit cs = true := by
  simp only [names_fit, name_fits, Bool.and_eq_true, Bool.or_eq_true, bne_iff_ne, ne_eq,
    decide_eq_true_eq, or_iff_not_imp_left, not_not]

theorem names_fit_append_right (a b : Text) (h : names_fit (a ++ b) = true) :
    names_fit b = true := by
  induction a with
  | nil => exact h
  | cons c cs ih => exact ih ((names_fit_cons_iff _ _).mp h).2

theorem names_fit_append_left (a b : Text) (h : names_fit (a ++ b) = true) :
    names_fit a = true := by
  induction a with
  | nil => rfl
  | cons c cs ih =>
    rw [List.cons_append] at h
    obtain ⟨h1, h2⟩ := (names_fit_cons_iff _ _).mp h
    refine (names_fit_cons_iff _ _).mpr ⟨fun hc => ?_, ih h2⟩
    obtain ⟨y, hy⟩ := takeWhile_append_exists name_char cs b
    have hlen := h1 hc
    rw [hy, List.length_append] at hlen
    omega

theorem cmd_ini_names_fit (sys : MCLSystem) (args : Text)
    (h : ∀ v ∈ sys.variables, v.name.length < MAX_VAR_NAME) (hl : names_fit args = true) :
    ∀ v ∈ (cmd_ini sys args).1.variables, v.name.length < MAX_VAR_NAME := by
  rcases cmd_ini_effect sys args with he | ⟨p1, hs, ⟨i, _, he⟩ | ⟨_, _, he⟩⟩
  · rw [he]; exact h
  · rw [he]
    intro v hv
    rcases set_at_mem hv with h1 | ⟨w, hw, h1⟩
    · exact h v h1
    · subst h1
      exact h w hw
  · rw [he]
    intro v hv
    simp only [with_new_variable, List.mem_append, List.mem_singleton] at hv
    rcases hv with h1 | h1
    · exact h v h1
    · subst h1
      have h2 : names_fit (skip_whitespace args) = true := by
        apply names_fit_append_right (args.takeWhile isspace)
        rw [skip_whitespace, List.takeWhile_append_dropWhile]
        exact hl
      rw [hs] at h2
      exact ((names_fit_cons_iff _ _).mp h2).1 rfl

/-- In the states of `ReachableFit` every stored name has at most 31 characters
and every loaded line names only such variables. -/
theorem reachable_fit_inv (sys : MCLSystem) (h : ReachableFit sys) :
    (∀ v ∈ sys.variables, v.name.length < MAX_VAR_NAME) ∧
      ∀ l ∈ sys.program, names_fit l.content = true := by
  induction h with
  | init =>
    refine ⟨?_, ?_⟩
    · intro v hv; cases hv
    · intro l hl; cases hl
  | step env input _ hl henv ih =>
    exact process_command_parts (fun t => names_fit t = true)
      (fun s => ∀ v ∈ s.variables, v.name.length < MAX_VAR_NAME)
      names_fit_append_left names_fit_append_right cmd_ini_names_fit
      (fun s t hst hs => by
        show ∀ v ∈ t.variables, v.name.length < MAX_VAR_NAME
        rw [← hst]
        exact hs)
      env _ input ih hl henv

theorem reachable_fit_reachable (sys : MCLSystem) (h : ReachableFit sys) : Reachable sys := by
  induction h with
  | init => exact Reachable.init
  | step env input _ _ _ ih => exact Reachable.step env input ih

theorem reachable_lit_fit_lit (sys : MCLSystem) (h : ReachableLitFit sys) : ReachableLit sys := by
  induction h with
  | init => exact ReachableLit.init
  | step env input _ hl _ henv ih =>
    exact ReachableLit.step env input ih hl (fun file hf => (henv file hf).1)

theorem reachable_lit_fit_fit (sys : MCLSystem) (h : ReachableLitFit sys) : ReachableFit sys := by
  induction h with
  | init => exact ReachableFit.init
  | step env input _ _ hn henv ih =>
    exact ReachableFit.step env input ih hn (fun file hf => (henv file hf).2)

/-! ## Distinct names -/

/-- C5: in every state reachable from the initial state by calls of
`process_command` (the INI lines `$RUN` executes included) whose variable names
have at most 31 characters, the names of the stored variables are pairwise
distinct: two different indices below `var_count` never hold the same name; and
every stored name has at most 31 characters.  The line `INI $` followed by the
32 characters of `long_name` and ` 5` is not such a call. -/
theorem reachable_names_distinct (sys : MCLSystem) (h : ReachableFit sys) :
    (sys.variables.map Variable.name).Nodup ∧
    (∀ (i j : Nat) (v w : Variable), i ≠ j → sys.variables[i]? = some v →
      sys.variables[j]? = some w → v.name ≠ w.name) ∧
    (∀ v ∈ sys.variables, v.name.length < MAX_VAR_NAME) ∧
    names_fit ("INI $".toList ++ long_name ++ " 5".toList) = false := by
  have hd : names_distinct sys :=
    reachable_preserves names_distinct (by simp [names_distinct, mcl_init])
      cmd_ini_names_distinct
      (fun env sys args hs => by
        simpa only [names_distinct, cmd_load_variables] using hs) sys
      (reachable_fit_reachable sys h)
  refine ⟨hd, ?_, (reachable_fit_inv sys h).1, by decide⟩
  intro i j v w hij hi hj hname
  have hi' : (sys.variables.map Variable.name)[i]? = some v.name := by
    simp [List.getElem?_map, hi]
  have hj' : (sys.variables.map Variable.name)[j]? = some w.name := by
    simp [List.getElem?_map, hj]
  rw [← hname] at hj'
  have hilt : i < (sys.variables.map Variable.name).length := by
    by_contra hc
    rw [List.getElem?_eq_none (Nat.not_lt.mp hc)] at hi'
    cases hi'
  have hjlt : j < (sys.variables.map Variable.name).length := by
    by_contra hc
    rw [List.getElem?_eq_none (Nat.not_lt.mp hc)] at hj'
    cases hj'
  rw [List.getElem?_eq_getElem hilt] at hi'
  rw [List.getElem?_eq_getElem hjlt] at hj'
  have := (List.Nodup.getElem_inj_iff hd).mp (Option.some.inj (hi'.trans hj'.symm))
  exact hij this

theorem reachable_names_distinct_witness :
    ReachableFit (process_command null_env
        (process_command null_env mcl_init "INI $A 1".toList).sys "INI $B 2".toList).sys ∧
    ((process_command null_env
        (process_command null_env mcl_init "INI $A 1".toList).sys
          "INI $B 2".toList).sys.variables.map Variable.name).Nodup :=
  ⟨ReachableFit.step _ _
      (ReachableFit.step _ _ ReachableFit.init (by decide) (fun _ h => by cases h))
      (by decide) (fun _ h => by cases h),
    (reachable_names_distinct _
      (ReachableFit.step _ _
        (ReachableFit.step _ _ ReachableFit.init (by decide) (fun _ h => by cases h))
        (by decide) (fun _ h => by cases h))).1⟩

/-! ## SAVE and the replay of its lines -/

theorem fmt_d_of_nonneg {x : Int} (h : 0 ≤ x) : fmt_d x = fmt_nat x.toNat := by
  have : ¬ x < 0 := not_lt.mpr h
  simp only [fmt_d, this, if_false]

/-- A saved line, given back to `process_command` in a state that does not hold
the name and has room, appends the variable. -/
theorem process_command_save_line (env : Env) (sys : MCLSystem) (v : Variable) (hv : var_ok v)
    (hnone : find_variable sys v.name = none) (hroom : sys.var_count < MAX_VARS) :
    (process_command env sys (save_line v)).sys = with_new_variable sys v.name v.value := by
  obtain ⟨hname, h0, hlt, _⟩ := hv
  obtain ⟨hdig, hne, hval⟩ := fmt_nat_spec v.value.toNat
  have hn : v.value.toNat < 2147483648 := by omega
  have hdisp : (process_command env sys (save_line v)).sys =
      (cmd_ini sys (" ".toList ++ '$' :: (v.name ++ " ".toList ++ fmt_nat v.value.toNat))).1 := by
    rw [save_line, fmt_d_of_nonneg h0]
    rfl
  rw [hdisp, cmd_ini_name_literal sys v.name (fmt_nat v.value.toNat) " ".toList " ".toList hname
    hne hdig (by rw [hval]; exact hn) (by decide) (by decide) (by decide), hnone, hval]
  have hfull : ¬ sys.var_count ≥ MAX_VARS := Nat.not_le.mpr hroom
  simp only [hfull, if_false, Int.toNat_of_nonneg h0]

theorem replay_save_lines (env : Env) (done rest : List Variable) (program : List ProgramLine)
    (current_program : Text) (program_loaded : Bool)
    (hd : ((done ++ rest).map Variable.name).Nodup) (hv : ∀ v ∈ rest, var_ok v)
    (hlen : (done ++ rest).length ≤ MAX_VARS) :
    replay env ⟨done, program, current_program, program_loaded⟩ (rest.map save_line) =
      ⟨done ++ rest, program, current_program, program_loaded⟩ := by
  induction rest generalizing done with
  | nil => simp [replay]
  | cons v rest ih =>
    have hvok := hv v (List.mem_cons_self _ _)
    have hnone : find_variable ⟨done, program, current_program, program_loaded⟩ v.name = none := by
      rw [find_variable_none_iff]
      intro w hw hwv
      simp only [List.map_append, List.map_cons] at hd
      have hdis := (List.nodup_append.mp hd).2.2
      exact hdis (List.mem_map_of_mem Variable.name hw) (by rw [hwv]; exact List.mem_cons_self _ _)
    have hroom : (MCLSystem.mk done program current_program program_loaded).var_count <
        MAX_VARS := by
      simp only [List.length_append, List.length_cons] at hlen
      simp only [MCLSystem.var_count]
      omega
    have hstep := process_command_save_line env _ v hvok hnone hroom
    have hv1 : (⟨v.name, v.value, 1⟩ : Variable) = v := by
      cases v with
      | mk n x u =>
        have hu : u = 1 := hvok.2.2.2
        subst hu
        rfl
    simp only [List.map_cons, replay, hstep, with_new_variable, hv1]
    have happ : done ++ v :: rest = (done ++ [v]) ++ rest := by simp
    rw [happ] at hd hlen ⊢
    exact ih (done ++ [v]) hd (fun x hx => hv x (List.mem_cons_of_mem _ hx)) hlen

theorem replay_append (env : Env) (sys : MCLSystem) (a b : List Text) :
    replay env sys (a ++ b) = replay env (replay env sys a) b := by
  induction a generalizing sys with
  | nil => rfl
  | cons l ls ih =>
    rw [List.cons_append, replay, replay]
    exact ih _

/-- A line that starts with `#` is not a command: the state is unchanged. -/
theorem process_command_comment (env : Env) (sys : MCLSystem) (t : Text) :
    (process_command env sys ('#' :: t)).sys = sys := rfl

theorem replay_comments (env : Env) (sys : MCLSystem) (ls : List Text)
    (h : ∀ l ∈ ls, ∃ t, l = '#' :: t) : replay env sys ls = sys := by
  induction ls with
  | nil => rfl
  | cons l ls ih =>
    obtain ⟨t, ht⟩ := h l (List.mem_cons_self _ _)
    subst ht
    simp only [replay, process_command_comment]
    exact ih (fun x hx => h x (List.mem_cons_of_mem _ hx))

theorem save_comments_hash (sys : MCLSystem) : ∀ l ∈ save_comments sys, ∃ t, l = '#' :: t := by
  intro l hl
  unfold save_comments at hl
  split_ifs at hl
  · rcases List.mem_cons.mp hl with h | h
    · exact ⟨_, h⟩
    · obtain ⟨p, _, hp⟩ := List.mem_map.mp h
      exact ⟨_, hp.symm⟩
  · cases hl

/-- C10, counterexample: the lines `LD 0,$p` and `$RUN` hold no literal of 2^31
or more and no name of more than 31 characters; with the program file of
`overflow_env` they leave the variable `A` with the value -1.  `cmd_save` then
writes the line `INI $A -1`, and that line, given to `process_command` in the
initial state, stores 0 under `A`, not -1. -/
theorem saved_negative_value_replay :
    lits_ok "LD 0,$p".toList = true ∧ lits_ok "$RUN".toList = true ∧
    save_variables (process_command overflow_env
        (process_command overflow_env mcl_init "LD 0,$p".toList).sys "$RUN".toList).sys =
      ["INI $A -1".toList] ∧
    (replay overflow_env mcl_init
      (save_variables (process_command overflow_env
        (process_command overflow_env mcl_init "LD 0,$p".toList).sys "$RUN".toList).sys)).variables =
      [⟨"A".toList, 0, 1⟩] ∧
    (replay overflow_env mcl_init
      (save_variables (process_command overflow_env
        (process_command overflow_env mcl_init "LD 0,$p".toList).sys "$RUN".toList).sys)).variables ≠
      (process_command overflow_env
        (process_command overflow_env mcl_init "LD 0,$p".toList).sys "$RUN".toList).sys.variables := by
  decide

/-- C10, amended: for every store reachable by commands in which the numeric
literal an `INI` command assigns is below 2^31 (commands whose numeric literals
are all below 2^31 are such commands) and every name written after a `$` has
at most 31 characters, the lines of the program files they load included,
`cmd_save`, when it can open
its file, writes the two header lines, then exactly `var_count` lines, the i-th
being `INI $name_i value_i`, then comment lines for the program; feeding the
variable lines in order to `process_command` from the initial state gives a
store with the same variables (names, values, order, hence `var_count`), and so
does feeding the whole file. -/
theorem save_replay_round_trip (env env2 : Env) (sys : MCLSystem) (args : Text)
    (h : ReachableLitFit sys) (hopen : env.fopen_write (save_filename args) = true) :
    (cmd_save env sys args).2.2 =
      some (save_filename args,
        ["# MCL State File".toList, "# Variables".toList] ++ save_variables sys ++
          save_comments sys) ∧
    (save_variables sys).length = sys.var_count ∧
    (∀ (i : Nat) (v : Variable), sys.variables[i]? = some v →
      (save_variables sys)[i]? =
        some ("INI $".toList ++ v.name ++ " ".toList ++ fmt_d v.value)) ∧
    (replay env2 mcl_init (save_variables sys)).variables = sys.variables ∧
    (replay env2 mcl_init (save_variables sys)).var_count = sys.var_count ∧
    (replay env2 mcl_init (save_file sys)).variables = sys.variables := by
  obtain ⟨⟨hd, hv, hc⟩, _⟩ := reachable_lit_inv sys (reachable_lit_fit_lit sys h)
  have hrep : replay env2 mcl_init (save_variables sys) = ⟨sys.variables, [], [], false⟩ := by
    have := replay_save_lines env2 [] sys.variables [] [] false (by simpa using hd) hv
      (by simpa using hc)
    simpa using this
  refine ⟨?_, ?_, ?_, ?_, ?_, ?_⟩
  · simp only [cmd_save, hopen, if_true, save_file]
  · simp only [save_variables, List.length_map, MCLSystem.var_count]
  · intro i v hi
    simp only [save_variables, List.getElem?_map, hi, Option.map_some', save_line]
  · rw [hrep]
  · rw [hrep]; rfl
  · have hfile : save_file sys =
        ["# MCL State File".toList, "# Variables".toList] ++
          (save_variables sys ++ save_comments sys) := by
      simp only [save_file, List.append_assoc]
    have hhead : replay env2 mcl_init ["# MCL State File".toList, "# Variables".toList] =
        mcl_init := rfl
    rw [hfile, replay_append, hhead, replay_append, hrep,
      replay_comments _ _ _ (save_comments_hash sys)]

theorem save_replay_round_trip_witness :
    ReachableLitFit (process_command sample_env
      (process_command sample_env mcl_init "LD 0,$p".toList).sys "$RUN".toList).sys ∧
    (replay sample_env mcl_init
      (save_variables (process_command sample_env
        (process_command sample_env mcl_init "LD 0,$p".toList).sys "$RUN".toList).sys)).variables =
      [⟨"A".toList, 1, 1⟩] :=
  ⟨ReachableLitFit.step _ _
      (ReachableLitFit.step _ _ ReachableLitFit.init (by decide) (by decide)
        (fun file h => by
          have hf : ld_file sample_env mcl_init "LD 0,$p".toList =
            some (file_of_lines ["PRINT HELLO".toList, "INI $A 1".toList] true) := rfl
          rw [hf] at h
          cases h
          decide))
      (by decide) (by decide) (fun _ h => by cases h),
    (save_replay_round_trip sample_env sample_env _ []
      (ReachableLitFit.step _ _
        (ReachableLitFit.step _ _ ReachableLitFit.init (by decide) (by decide)
          (fun file h => by
            have hf : ld_file sample_env mcl_init "LD 0,$p".toList =
              some (file_of_lines ["PRINT HELLO".toList, "INI $A 1".toList] true) := rfl
            rw [hf] at h
            cases h
            decide))
        (by decide) (by decide) (fun _ h => by cases h)) rfl).2.2.2.1⟩

/-! ## LIST -/

/-- C11: `LIST $$,T` does not reach the variable-listing row.  After the two
sigils comes the comma, so no special word is recorded; the second parameter
is the value of the expression `T`, which is 0, and the row of the program
lines is selected: in every state the output is `Program lines:` followed by
the program lines, and no variable is printed.  After `INI $A 1` and
`INI $B 2` the output is the single line `Program lines:`. -/
theorem cmd_list_dollars_T (env : Env) (sys : MCLSystem) :
    cmd_list env sys " $$,T".toList =
      (sys, ["Program lines:".toList] ++
        sys.program.map (fun l => fmt_d l.line_number ++ " ".toList ++ l.content)) ∧
    (process_command env sys "LIST $$,T".toList).out =
      ["Program lines:".toList] ++
        sys.program.map (fun l => fmt_d l.line_number ++ " ".toList ++ l.content) ∧
    (process_command env
      (process_command env (process_command env mcl_init "INI $A 1".toList).sys
        "INI $B 2".toList).sys "LIST $$,T".toList).out = ["Program lines:".toList] ∧
    cmd_list env sys " $T".toList =
      (sys, ["Variables:".toList] ++
        sys.variables.map (fun v => "$".toList ++ v.name ++ " = ".toList ++ fmt_d v.value)) := by
  have h1 : (process_command env mcl_init "INI $A 1".toList).sys =
      ⟨[⟨"A".toList, 1, 1⟩], [], [], false⟩ := rfl
  have h2 : (process_command env ⟨[⟨"A".toList, 1, 1⟩], [], [], false⟩ "INI $B 2".toList).sys =
      ⟨[⟨"A".toList, 1, 1⟩, ⟨"B".toList, 2, 1⟩], [], [], false⟩ := rfl
  refine ⟨rfl, rfl, ?_, rfl⟩
  rw [h1, h2]
  rfl

/-- C12: `LIST $,1` does not reach the row of the mounted filesystems.  After
the sigil comes the comma, so the first parameter stays -1 and the 1 is the
second parameter; no row matches and the usage text is printed, in every
state and environment.  The row of the mounted filesystems is selected by no
parameters at all: where its condition holds (one sigil, first parameter 1)
the row above it, which has the same condition, lists the directories. -/
theorem cmd_list_dollar_one (env : Env) (sys : MCLSystem) :
    cmd_list env sys " $,1".toList = (sys, list_usage) ∧
    (process_command env sys "LIST $,1".toList).out = list_usage ∧
    (list_head sys "$,1".toList).first_param = -1 ∧
    (list_head sys "$,1".toList).dollar_count = 1 ∧
    (list_second sys (list_head sys "$,1".toList).ptr).1 = 1 ∧
    (∀ second_param : Int, list_rows env sys 1 1 [] second_param =
      match env.opendir with
      | some entries =>
        ["Directories:".toList] ++
          (entries.filter (fun e => e.is_dir && peek e.d_name != '.')).map
            (fun e => e.d_name ++ "/".toList)
      | none => ["Error: Cannot access current directory".toList]) :=
  ⟨rfl, rfl, rfl, rfl, rfl, fun _ => rfl⟩

/-- C13: `LIST 1,$` does not reach the row of the subdirectories.  The sigil
comes after the digit, so it is not counted: `dollar_count` is 0, the first
parameter is 1 and the second is the value of the expression `$`, a reference
to the variable with the empty name.  No row matches: in every state and
environment the output is the usage text, preceded by the not-found
diagnostic when no variable has the empty name; it is the usage text that
`LIST $,1` prints too.  `LIST $1` is what lists the directories. -/
theorem cmd_list_one_dollar (env : Env) (sys : MCLSystem) :
    cmd_list env sys " 1,$".toList =
      (sys, (if is_stored sys [] then [] else [not_found_message []]) ++ list_usage) ∧
    (process_command env sys "LIST 1,$".toList).out =
      (if is_stored sys [] then [] else [not_found_message []]) ++ list_usage ∧
    (list_head sys "1,$".toList).dollar_count = 0 ∧
    (list_head sys "1,$".toList).first_param = 1 ∧
    (process_command env mcl_init "LIST 1,$".toList).out =
      ["Error: Variable $ not found".toList] ++ list_usage ∧
    cmd_list env sys " $1".toList =
      (sys, match env.opendir with
        | some entries =>
          ["Directories:".toList] ++
            (entries.filter (fun e => e.is_dir && peek e.d_name != '.')).map
              (fun e => e.d_name ++ "/".toList)
        | none => ["Error: Cannot access current directory".toList]) := by
  have hhead : list_head sys "1,$".toList = ⟨0, 1, [], ",$".toList, []⟩ := rfl
  have hsec : list_second sys ",$".toList =
      ((evaluate_expression sys "$".toList).value, (evaluate_expression sys "$".toList).out) := rfl
  have heval := evaluate_expression_dollar sys []
  have hrows : ∀ second_param : Int, list_rows env sys 0 1 [] second_param = list_usage :=
    fun _ => rfl
  have hcmd : cmd_list env sys " 1,$".toList =
      (sys, (if is_stored sys [] then [] else [not_found_message []]) ++ list_usage) := by
    have hskip : skip_whitespace " 1,$".toList = "1,$".toList := rfl
    simp only [cmd_list, hskip, hhead, hsec, hrows, List.nil_append]
    rw [show ("$".toList : Text) = '$' :: [] from rfl, heval]
    rfl
  refine ⟨hcmd, ?_, rfl, rfl, rfl, rfl⟩
  have hdisp : (process_command env sys "LIST 1,$".toList).out =
      (cmd_list env sys " 1,$".toList).2 := rfl
  rw [hdisp, hcmd]

/-! ## Dispatch -/

theorem verbs_alpha : ∀ v ∈ verbs, ∀ c ∈ v, isalpha c = true := by decide

theorem starts_with_keyword {ptr v : Text} (hv : ∀ c ∈ v, isalpha c = true)
    (h : starts_with ptr v = true) : v <+: ptr.takeWhile isalpha := by
  obtain ⟨r, hr⟩ := List.isPrefixOf_iff_prefix.mp h
  rw [← hr, List.takeWhile_append_of_pos hv]
  exact List.prefix_append _ _

theorem starts_with_head_ne {ptr w : Text} {c d : Char} (hptr : ptr.head? = some c)
    (hcd : d ≠ c) : starts_with ptr (d :: w) = false := by
  cases ptr with
  | nil => cases hptr
  | cons x xs =>
    simp only [List.head?_cons, Option.some.injEq] at hptr
    subst hptr
    simp [starts_with, List.isPrefixOf, hcd]

/-- C14, counterexample: the leading keywords of `EDIT` and `SUMMARY 1,2` are
none of the verbs, yet `EDIT` is handled by `cmd_edit`, which prints its own
error, and `SUMMARY 1,2` by `cmd_sum`, which prints 0; neither prints
`Unknown command`. -/
theorem process_command_prefix_dispatch :
    leading_keyword "EDIT".toList = "EDIT".toList ∧ "EDIT".toList ∉ verbs ∧
    (process_command null_env mcl_init "EDIT".toList).out =
      ["Error: ED requires $NUM<line number>".toList] ∧
    leading_keyword "SUMMARY 1,2".toList = "SUMMARY".toList ∧ "SUMMARY".toList ∉ verbs ∧
    (process_command null_env mcl_init "SUMMARY 1,2".toList).out = ["0".toList] := by
  decide

/-- C14, amended: for every state and every line whose leading keyword is
non-empty and has none of the verbs SUM, SYB, INI, LIST, LD, SAVE, ED, HELP,
EXIT, QUIT as a prefix, `process_command` prints `Unknown command:` with the
line (without its leading blanks) and then the HELP hint, writes no file, does
not exit and returns the state it was given. -/
theorem process_command_unknown (env : Env) (sys : MCLSystem) (input : Text)
    (hne : leading_keyword input ≠ [])
    (hverbs : ∀ v ∈ verbs, ¬ v <+: leading_keyword input) :
    process_command env sys input =
      ⟨sys, ["Unknown command: ".toList ++ skip_whitespace input,
        "Type HELP for available commands".toList], none, false⟩ := by
  have hstart : ∀ v ∈ verbs, ¬ starts_with (skip_whitespace input) v = true := by
    intro v hv hs
    exact hverbs v hv (starts_with_keyword (verbs_alpha v hv) hs)
  obtain ⟨c, hc, halpha⟩ : ∃ c, (skip_whitespace input).head? = some c ∧ isalpha c = true := by
    unfold leading_keyword at hne
    cases hs : skip_whitespace input with
    | nil => rw [hs] at hne; exact absurd rfl hne
    | cons x xs =>
      rw [hs] at hne
      refine ⟨x, rfl, ?_⟩
      cases hx : isalpha x with
      | true => rfl
      | false => simp [List.takeWhile_cons, hx] at hne
  have hdollar : ¬ starts_with (skip_whitespace input) "$RUN".toList = true := by
    rw [show "$RUN".toList = '$' :: "RUN".toList from rfl,
      starts_with_head_ne hc (by intro h; subst h; exact absurd halpha (by decide))]
    exact Bool.false_ne_true
  have hquest : starts_with (skip_whitespace input) "?".toList = false :=
    starts_with_head_ne hc (by intro h; subst h; exact absurd halpha (by decide))
  have hhelp : ¬ (starts_with (skip_whitespace input) "HELP".toList ||
      starts_with (skip_whitespace input) "?".toList) = true := by
    rw [hquest, Bool.or_false]
    exact hstart _ (by decide)
  have hexit : ¬ (starts_with (skip_whitespace input) "EXIT".toList ||
      starts_with (skip_whitespace input) "QUIT".toList) = true := by
    rw [Bool.or_eq_true]
    rintro (h | h)
    · exact hstart _ (by decide) h
    · exact hstart _ (by decide) h
  have hnil : ¬ skip_whitespace input = [] := by
    intro h
    rw [h] at hc
    cases hc
  unfold process_command
  dsimp only
  rw [if_neg (hstart "SUM".toList (by decide)), if_neg (hstart "SYB".toList (by decide)),
    if_neg (hstart "INI".toList (by decide)), if_neg (hstart "LIST".toList (by decide)),
    if_neg (hstart "LD".toList (by decide)), if_neg (hstart "SAVE".toList (by decide)),
    if_neg (hstart "ED".toList (by decide)), if_neg hdollar, if_neg hhelp, if_neg hexit,
    if_neg hnil]

theorem process_command_unknown_witness :
    leading_keyword " FOO 1".toList ≠ [] ∧
    (∀ v ∈ verbs, ¬ v <+: leading_keyword " FOO 1".toList) ∧
    (process_command null_env mcl_init " FOO 1".toList).out =
      ["Unknown command: FOO 1".toList, "Type HELP for available commands".toList] :=
  ⟨by decide, by decide,
    congrArg Outcome.out (process_command_unknown null_env mcl_init " FOO 1".toList (by decide)
      (by decide))⟩

/-! ## The interactive loop -/

theorem isalpha_dollar : isalpha '$' = false := by decide

theorem upcase_char (c : Char) : (if (isalpha c && c != '$') = true then toupper c else c) = toupper c := by
  cases ha : isalpha c with
  | true =>
    have hc : c ≠ '$' := by
      intro h
      subst h
      exact absurd ha (by decide)
    simp [hc]
  | false =>
    have hl : islower c = false := by
      simp only [isalpha, Bool.or_eq_false_iff] at ha
      exact ha.2
    simp [toupper, hl]

/-- C15: the normalisation of `main` upper-cases every letter of the line,
those of the variable names after a `$` sigil included: the test
`*ptr != '$'` never fails for a letter.  The input `ini $abc 5` is dispatched
as `INI $ABC 5` and creates the variable `ABC`; no variable `abc` exists
afterwards. -/
theorem upcase_line_every_letter (env : Env) (input : Text) :
    upcase_line input = input.map toupper ∧
    upcase_line "ini $abc 5".toList = "INI $ABC 5".toList ∧
    (main_iteration env mcl_init "ini $abc 5\n".toList).map (fun r => r.1.sys.variables) =
      some [⟨"ABC".toList, 5, 1⟩] ∧
    (main_iteration env mcl_init "ini $abc 5\n".toList).map
      (fun r => find_variable r.1.sys "abc".toList) = some none := by
  refine ⟨?_, by decide, rfl, rfl⟩
  unfold upcase_line
  apply List.map_congr_left
  intro c _
  exact upcase_char c

/-! ## The lexer -/

/-- C17: the length of a stored name is not bounded by `MAX_VAR_NAME - 1`.
`cmd_ini` copies the whole run of alphanumeric/underscore characters that
follows the sigil and `create_variable` stores it whole: after `INI $` followed
by a name of 32 characters, a reachable state holds a variable whose name has
32 characters. -/
theorem stored_name_not_bounded :
    MAX_VAR_NAME - 1 = 31 ∧ long_name.length = 32 ∧
    Reachable (process_command null_env mcl_init ("INI $".toList ++ long_name)).sys ∧
    (process_command null_env mcl_init ("INI $".toList ++ long_name)).sys.variables =
      [⟨long_name, 0, 1⟩] ∧
    (process_command null_env mcl_init ("INI $".toList ++ long_name)).out =
      ["Variable $".toList ++ long_name ++ " initialized to 0".toList] := by
  exact ⟨rfl, rfl, Reachable.step _ _ Reachable.init, by decide, by decide⟩

/-! ## Literals and other expressions -/

theorem eval_digits_split (t : Text) (h : decimal_value (t.takeWhile isdigit) < 2147483648) :
    eval_digits 0 t = ((decimal_value (t.takeWhile isdigit) : Int), t.dropWhile isdigit) := by
  have key := eval_digits_append 0 (t.takeWhile isdigit) (t.dropWhile isdigit)
    (fun c hc => (List.mem_takeWhile_imp hc))
    (dropWhile_head_not isdigit t) (by simpa [decimal_value_eq] using h)
  rw [List.takeWhile_append_dropWhile] at key
  simp only [Nat.cast_zero] at key
  rw [key]
  rfl

/-- C18: for every text, with `t` the text after its leading blanks: when `t`
starts with a digit and the value of its maximal leading run of digits is
below 2^31, `evaluate_expression` returns that value, without output, and the
remaining text is `t` after the run; when `t` is empty or starts with a
character that is neither a digit nor `$`, it returns 0, without output, and
the remaining text is `t`.  In every case the state returned is the state
given. -/
theorem evaluate_expression_literal (sys : MCLSystem) (text : Text) :
    (∀ (c : Char) (cs : Text), skip_whitespace text = c :: cs → isdigit c = true →
      decimal_value ((c :: cs).takeWhile isdigit) < 2147483648 →
      (evaluate_expression sys text).value =
        (decimal_value ((c :: cs).takeWhile isdigit) : Int) ∧
      (evaluate_expression sys text).input = (c :: cs).dropWhile isdigit ∧
      (evaluate_expression sys text).out = []) ∧
    ((∀ c ∈ (skip_whitespace text).head?, c ≠ '$' ∧ isdigit c = false) →
      (evaluate_expression sys text).value = 0 ∧
      (evaluate_expression sys text).input = skip_whitespace text ∧
      (evaluate_expression sys text).out = []) ∧
    (evaluate_expression sys text).sys = sys := by
  refine ⟨?_, ?_, evaluate_expression_sys sys text⟩
  · intro c cs hs hd hfit
    have hdol : c ≠ '$' := by
      intro h; subst h; exact absurd hd (by decide)
    simp only [evaluate_expression, hs, hdol, if_false, hd, if_true, eval_digits_split _ hfit,
      and_self]
  · intro h
    rw [evaluate_expression_other sys text h]
    exact ⟨rfl, rfl, rfl⟩

theorem evaluate_expression_literal_witness :
    skip_whitespace "  120+3".toList = '1' :: "20+3".toList ∧
    (evaluate_expression mcl_init "  120+3".toList).value = 120 ∧
    (evaluate_expression mcl_init "  120+3".toList).input = "+3".toList ∧
    (evaluate_expression mcl_init "  120+3".toList).out = [] :=
  ⟨by decide,
    (evaluate_expression_literal mcl_init "  120+3".toList).1 '1' "20+3".toList (by decide)
      (by decide) (by decide)⟩

/-! ## INI in a program and INI at the prompt -/

/-- C20, counterexample: the lines `LD 0,$p` and `$RUN` hold no literal of 2^31
or more, but the program file holds the line `INI $A 4294967295`; after the two
calls of `process_command` the variable `A` holds -1. -/
theorem loaded_literal_overflow :
    lits_ok "LD 0,$p".toList = true ∧ lits_ok "$RUN".toList = true ∧
    (process_command overflow_env (process_command overflow_env mcl_init "LD 0,$p".toList).sys
      "$RUN".toList).sys.variables = [⟨"A".toList, -1, 1⟩] ∧
    (process_command overflow_env (process_command overflow_env mcl_init "LD 0,$p".toList).sys
      "$RUN".toList).out =
      ["Running program: p".toList, "Executing line 10: INI $A 4294967295".toList,
        "Variable $A initialized to -1".toList, "Program execution completed".toList] := by
  decide

/-- C20, amended: in every state reachable from the initial state by calls of
`process_command` in which the numeric literal an `INI` command assigns is
below 2^31, on the line of the call and on the lines of the program file the
call loads, every stored value is non-negative; calls whose numeric literals,
and those of the program files they load, are all below 2^31 are such calls.
In such a state `evaluate_expression` returns no negative number on a text
whose leading literal is below 2^31.  `INI $A -5` stores 0, and `cmd_syb` only
prints its result: it returns the state it was given. -/
theorem reachable_values_nonneg (env : Env) :
    (∀ sys : MCLSystem, ReachableLit sys → ∀ v ∈ sys.variables, 0 ≤ v.value) ∧
    (∀ line : Text, lits_ok line = true → ini_literal_ok line = true) ∧
    (∀ file : List Char, lits_ok file = true → file_literals_ok file = true) ∧
    (∀ (sys : MCLSystem) (input : Text), ReachableLit sys →
      decimal_value ((skip_whitespace input).takeWhile isdigit) < 2147483648 →
      0 ≤ (evaluate_expression sys input).value) ∧
    (process_command env mcl_init "INI $A -5".toList).sys.variables = [⟨"A".toList, 0, 1⟩] ∧
    (∀ (sys : MCLSystem) (args : Text), (cmd_syb sys args).1 = sys) ∧
    (process_command env mcl_init "SYB 3,5".toList).out = ["-2".toList] ∧
    (process_command env mcl_init "SYB 3,5".toList).sys = mcl_init := by
  refine ⟨?_, ?_, file_literals_ok_of_lits_ok, ?_, rfl, cmd_syb_sys, rfl, rfl⟩
  · intro sys h v hv
    exact ((reachable_lit_inv sys h).1.2.1 v hv).2.1
  · intro line hl
    exact ini_literal_ok_of_part line (lits_part_of_ok hl)
  · intro sys input h hl
    refine (evaluate_expression_range sys input (reachable_lit_inv sys h).1.2.1 ?_).1
    intro c cs hs _
    rw [hs] at hl
    exact hl

theorem reachable_values_nonneg_witness :
    lits_ok "INI $V99999999999 1".toList = true ∧
    ReachableLit (process_command null_env mcl_init "INI $V99999999999 1".toList).sys ∧
    decimal_value ((skip_whitespace "$V99999999999".toList).takeWhile isdigit) < 2147483648 ∧
    0 ≤ (evaluate_expression (process_command null_env mcl_init "INI $V99999999999 1".toList).sys
      "$V99999999999".toList).value :=
  ⟨by decide,
    ReachableLit.step _ _ ReachableLit.init (by decide) (fun _ h => by cases h), by decide,
    (reachable_values_nonneg null_env).2.2.2.1 _ "$V99999999999".toList
      (ReachableLit.step _ _ ReachableLit.init (by decide) (fun _ h => by cases h)) (by decide)⟩

end MCL
